import Mathlib

/-! # Core-logic model of the reel-transcript tool (src/app.py)

Strings of the Python source are modelled as `List Char` (a Python `str`
is a sequence of code points); the nonnegative float arithmetic of the
subtitle formatter is modelled over `ℚ`.  External collaborators (the
downloader, the speech model, the web framework, the file system) appear
only as abstract parameters or are cut at the call boundary.

The models of `urllib.parse.urlsplit` / `urlunsplit` follow the CPython
implementation restricted to the cases the program exercises: string
input, `allow_fragments=True`, removal of the unsafe bytes `\t\r\n`, and
the classic unbalanced-bracket check on the authority (the extra
bracketed-host validation of the newest CPython is not modelled; inputs
with brackets in the authority are outside every claim's scope).
Case-insensitive matching (`re.IGNORECASE`) and `str.lower`/`str.strip`
are modelled on the ASCII range; exotic Unicode case folding is not
modelled.
-/

deriving instance DecidableEq for Except

namespace ReelTranscript

/-- ASCII uppercase letter test, on code points. -/
def isUpperA (c : Char) : Bool := 65 ≤ c.toNat && c.toNat ≤ 90

/-- ASCII lowercase letter test. -/
def isLowerA (c : Char) : Bool := 97 ≤ c.toNat && c.toNat ≤ 122

/-- ASCII letter test (Python `str.isascii() and str.isalpha()`). -/
def isAlphaA (c : Char) : Bool := isUpperA c || isLowerA c

/-- ASCII digit test. -/
def isDigitA (c : Char) : Bool := 48 ≤ c.toNat && c.toNat ≤ 57

/-- ASCII alphanumeric test. -/
def isAlnumA (c : Char) : Bool := isAlphaA c || isDigitA c

/-- ASCII lowering, modelling Python `str.lower` on the ASCII range. -/
def asciiLower (c : Char) : Char :=
  if isUpperA c then Char.ofNat (c.toNat + 32) else c

/-- Characters `urllib.parse.urlsplit` deletes from its input
(`_UNSAFE_URL_BYTES_TO_REMOVE`). -/
def unsafeUrlChar (c : Char) : Bool := c = '\t' || c = '\r' || c = '\n'

/-- Characters `urlsplit` keeps. -/
def keepUrlChar (c : Char) : Bool := !unsafeUrlChar c

/-- Characters allowed in a URL scheme (`urllib.parse.scheme_chars`). -/
def schemeChar (c : Char) : Bool := isAlnumA c || c = '+' || c = '-' || c = '.'

/-- Test for a character other than `sep`. -/
def notChar (sep c : Char) : Bool := if c = sep then false else true

/-- Split `l` at the first occurrence of `sep`: the part before it and,
when the separator occurs, the part after it (Python `str.split(sep, 1)`
together with the `sep in s` test). -/
def splitOnce (sep : Char) (l : List Char) : List Char × Option (List Char) :=
  match l.dropWhile (notChar sep) with
  | [] => (l, none)
  | _ :: rest => (l.takeWhile (notChar sep), some rest)

/-- Scheme-detection step of `urlsplit`: accept a scheme when the first
`:` is preceded by a nonempty run of scheme characters starting with an
ASCII letter; the accepted scheme is lowered. -/
def splitScheme (l : List Char) : List Char × List Char :=
  match splitOnce ':' l with
  | (_, none) => ([], l)
  | (pre, some rest) =>
    match pre with
    | [] => ([], l)
    | c :: _ =>
      if isAlphaA c && pre.all schemeChar then (pre.map asciiLower, rest)
      else ([], l)

/-- Characters ending the authority in `_splitnetloc`. -/
def netlocEnd (c : Char) : Bool := c = '/' || c = '?' || c = '#'

/-- Negation of `netlocEnd`, the continuation test of the authority scan. -/
def notNetlocEnd (c : Char) : Bool := !netlocEnd c

/-- Authority extraction of `_splitnetloc` (from after the `//`). -/
def splitNetloc (l : List Char) : List Char × List Char :=
  (l.takeWhile notNetlocEnd, l.dropWhile notNetlocEnd)

/-- The five components returned by `urlsplit`. -/
structure SplitResult where
  scheme : List Char
  netloc : List Char
  path : List Char
  query : List Char
  fragment : List Char
deriving DecidableEq, Repr

/-- Fragment and query splitting tail of `urlsplit`: the fragment is cut
at the first `#`, then the query at the first `?` of what precedes it. -/
def urlsplitTail (scheme netloc rest : List Char) : SplitResult :=
  let fr := splitOnce '#' rest
  let qr := splitOnce '?' fr.1
  ⟨scheme, netloc, qr.1, qr.2.getD [], fr.2.getD []⟩

/-- Authority stage of `urlsplit`: when the remainder starts with `//`
(`url[:2] == '//'`) the authority is cut out and checked for unbalanced
brackets (the raised `ValueError`); then fragment and query are split
off. -/
def urlsplitAfterScheme (scheme u1 : List Char) : Except (List Char) SplitResult :=
  if u1.take 2 = "//".toList then
    if ('[' ∈ (splitNetloc (u1.drop 2)).1 ∧ ']' ∉ (splitNetloc (u1.drop 2)).1) ∨
        (']' ∈ (splitNetloc (u1.drop 2)).1 ∧ '[' ∉ (splitNetloc (u1.drop 2)).1) then
      .error "Invalid IPv6 URL".toList
    else
      .ok (urlsplitTail scheme (splitNetloc (u1.drop 2)).1 (splitNetloc (u1.drop 2)).2)
  else .ok (urlsplitTail scheme [] u1)

/-- Model of `urllib.parse.urlsplit` (see the file header for the
modelled restrictions): delete the unsafe bytes, detect the scheme, then
parse authority, fragment and query. -/
def urlsplit (url : List Char) : Except (List Char) SplitResult :=
  urlsplitAfterScheme (splitScheme (url.filter keepUrlChar)).1
    (splitScheme (url.filter keepUrlChar)).2

/-- Model of `urllib.parse.urlunsplit` on a five-component value. -/
def urlunsplit (r : SplitResult) : List Char :=
  let p1 :=
    if r.netloc ≠ [] ∨ r.path.take 2 = "//".toList then
      "//".toList ++ r.netloc ++
        (if r.path ≠ [] ∧ r.path.take 1 ≠ "/".toList then '/' :: r.path else r.path)
    else r.path
  let p2 := if r.scheme ≠ [] then r.scheme ++ ':' :: p1 else p1
  let p3 := if r.query ≠ [] then p2 ++ '?' :: r.query else p2
  if r.fragment ≠ [] then p3 ++ '#' :: r.fragment else p3

/-- Split a list at every occurrence of `sep`, modelling Python
`str.split(sep)` (so `splitOnChar sep [] = [[]]`). -/
def splitOnChar (sep : Char) : List Char → List (List Char)
  | [] => [[]]
  | c :: r =>
    if c = sep then [] :: splitOnChar sep r
    else (c :: (splitOnChar sep r).headI) :: (splitOnChar sep r).tail

/-- Nonempty `/`-segments of a path
(`[p for p in parsed.path.split("/") if p]`). -/
def pathParts (path : List Char) : List (List Char) :=
  (splitOnChar '/' path).filter (· ≠ [])

/-- Reel-identifier lookup among the path segments: the segment after the
first `reel` (preferred) or else `reels` segment; `none` models the
`ValueError` / `IndexError` caught by the surrounding `try`. -/
def locateReelId (ps : List (List Char)) : Option (List Char) :=
  if "reel".toList ∈ ps then ps[ps.indexOf "reel".toList + 1]?
  else if "reels".toList ∈ ps then ps[ps.indexOf "reels".toList + 1]?
  else none

/-- Model of `_clean_instagram_reel_url`. -/
def cleanInstagramReelUrl (url : List Char) : Except (List Char) (List Char) :=
  match urlsplit url with
  | .error e => .error e
  | .ok parsed =>
    match locateReelId (pathParts parsed.path) with
    | none => .error "URL does not contain a valid Instagram reel id.".toList
    | some rid =>
      .ok (urlunsplit ⟨(if parsed.scheme = [] then "https".toList else parsed.scheme),
                       (if parsed.netloc = [] then "www.instagram.com".toList else parsed.netloc),
                       "/reel/".toList ++ rid, [], []⟩)

/-- Identifier class `[A-Za-z0-9_\-]` of `INSTAGRAM_RE`. -/
def isIdentChar (c : Char) : Bool := isAlnumA c || c = '_' || c = '-'

/-- Delete a literal from the front: `some` of the remainder exactly when
`lit` is an initial run of the second argument. -/
def dropLit : List Char → List Char → Option (List Char)
  | [], l => some l
  | _ :: _, [] => none
  | p :: ps, c :: cs => if c = p then dropLit ps cs else none

/-- Optional-literal step, for the `(...)?` groups of the pattern. -/
def dropOpt (lit l : List Char) : List Char := (dropLit lit l).getD l

/-- Remainder accepted after the identifier: `/?$`, where `re`'s `$` also
matches just before a single final newline. -/
def tailOk (l : List Char) : Bool :=
  l = [] || l = ['\n'] || l = ['/'] || l = ['/', '\n']

/-- Identifier-and-tail step `[A-Za-z0-9_\-]+/?$` of the pattern. -/
def matchIdent (l7 : List Char) : Bool :=
  !(l7.takeWhile isIdentChar).isEmpty && tailOk (l7.dropWhile isIdentChar)

/-- Step `s?/` of the pattern (`reels?` then the path slash). -/
def matchAfterReelSeg (l5 : List Char) : Bool :=
  match dropLit "/".toList (dropOpt "s".toList l5) with
  | none => false
  | some l7 => matchIdent l7

/-- Step `(www\.)?instagram\.com/reel` of the pattern. -/
def matchAfterAuthority (l3 : List Char) : Bool :=
  match dropLit "instagram.com/reel".toList (dropOpt "www.".toList l3) with
  | none => false
  | some l5 => matchAfterReelSeg l5

/-- Step `s?://` of the pattern (`https?` then the separator). -/
def matchAfterHttp (l1 : List Char) : Bool :=
  match dropLit "://".toList (dropOpt "s".toList l1) with
  | none => false
  | some l3 => matchAfterAuthority l3

/-- Case-sensitive core of `INSTAGRAM_RE`
(`^https?://(www\.)?instagram\.com/reels?/[A-Za-z0-9_\-]+/?$`), run on
lowered text.  Each alternative of the pattern is decided by the next
literal character, so the greedy reading equals the backtracking one. -/
def matchLowered (l : List Char) : Bool :=
  match dropLit "http".toList l with
  | none => false
  | some l1 => matchAfterHttp l1

/-- Model of `INSTAGRAM_RE.match(url)`, with `re.IGNORECASE` modelled as
ASCII lowering of the subject (the pattern's classes are closed under
ASCII case). -/
def instagramMatch (l : List Char) : Bool := matchLowered (l.map asciiLower)

/-- URL-handling head of `download_audio` (clean, then re-validate with
`INSTAGRAM_RE`); the actual retrieval is external and cut here. -/
def downloadAudioValidate (url : List Char) : Except (List Char) (List Char) :=
  match cleanInstagramReelUrl url with
  | .error e => .error e
  | .ok cleaned =>
    if instagramMatch cleaned then .ok cleaned
    else .error "This does not look like a valid Instagram Reel URL.".toList

/-- Constructor arguments recorded by the cached model instance
(`WhisperModel(model_size, device="cpu", compute_type=compute_type)`). -/
structure WhisperModel where
  modelSize : String
  computeType : String
deriving DecidableEq, Repr

/-- Model of `get_model` acting on the module-level `_MODEL` slot.
`ctor` stands for the external `WhisperModel` constructor, which may
fail; the function returns the call's outcome and the new slot value, and
a failed construction leaves the slot empty. -/
def getModel (ctor : String → String → Except String WhisperModel)
    (state : Option WhisperModel) (modelSize computeType : String) :
    Except String WhisperModel × Option WhisperModel :=
  match state with
  | some m => (.ok m, some m)
  | none =>
    match ctor modelSize computeType with
    | .ok m => (.ok m, some m)
    | .error e => (.error e, none)

/-- Response of the `POST /transcribe` endpoint: a result list, or the
status and detail of the raised `HTTPException`. -/
inductive ApiResponse (R : Type) where
  | results : List R → ApiResponse R
  | httpError : Nat → List Char → ApiResponse R
deriving DecidableEq

/-- Model of the `api_transcribe` loop over the requested URLs.  `step`
stands for the body of the per-URL `try` block (download, transcription,
subtitle write, result shaping); an exception anywhere in the body
becomes the `HTTPException` detail. -/
def apiTranscribe {R : Type} (step : List Char → Except (List Char) R) :
    List (List Char) → ApiResponse R
  | [] => .results []
  | u :: rest =>
    match step u with
    | .error e => .httpError 400 ("Failed for ".toList ++ u ++ ": ".toList ++ e)
    | .ok r =>
      match apiTranscribe step rest with
      | .results rs => .results (r :: rs)
      | .httpError s d => .httpError s d

/-- Python whitespace test (ASCII range). -/
def pyIsSpace (c : Char) : Bool :=
  c = ' ' || c = '\t' || c = '\n' || c = '\r' || c = '\x0b' || c = '\x0c'

/-- Model of `str.strip()`. -/
def pyStrip (l : List Char) : List Char :=
  ((l.dropWhile pyIsSpace).reverse.dropWhile pyIsSpace).reverse

/-- Model of `sep.join(parts)`. -/
def joinSep (sep : List Char) : List (List Char) → List Char
  | [] => []
  | [x] => x
  | x :: xs => x ++ sep ++ joinSep sep xs

/-- Round half to even, modelling Python `round` on the exact rationals
our inputs stand for. -/
def pyRoundQ (x : ℚ) : ℤ :=
  if x - ⌊x⌋ < 1/2 then ⌊x⌋
  else if 1/2 < x - ⌊x⌋ then ⌊x⌋ + 1
  else if ⌊x⌋ % 2 = 0 then ⌊x⌋ else ⌊x⌋ + 1

/-- Python `round(x, 2)`. -/
def round2 (x : ℚ) : ℚ := (pyRoundQ (x * 100) : ℚ) / 100

/-- One segment as produced by the external speech model. -/
structure RawSegment where
  id : ℕ
  start : ℚ
  stop : ℚ
  text : List Char
deriving DecidableEq, Repr

/-- One shaped segment of the result (`stop` models the source field
`end`, a Lean keyword). -/
structure Segment where
  id : ℕ
  start : ℚ
  stop : ℚ
  text : List Char
deriving DecidableEq, Repr

/-- The segment-shaping loop of `transcribe`: per raw segment a shaped
segment is always appended, and its stripped text joins the full-text
parts only when nonempty. -/
def shapeSegments : List RawSegment → List Segment × List (List Char)
  | [] => ([], [])
  | r :: rest =>
    let t := pyStrip r.text
    let tail := shapeSegments rest
    (⟨r.id, round2 r.start, round2 r.stop, t⟩ :: tail.1,
     if t ≠ [] then t :: tail.2 else tail.2)

/-- Attributes of the external model's info object that `transcribe`
reads (`none` models a missing attribute / `None`). -/
structure WhisperInfo where
  duration : Option ℚ
  language : Option (List Char)

/-- The dictionary returned by `transcribe`. -/
structure TranscriptionResult where
  duration : Option ℚ
  language : Option (List Char)
  segments : List Segment
  text : List Char
deriving DecidableEq

/-- Result shaping of `transcribe` from the external model's output
(`language` is the caller's language hint, used when the info object
carries no truthy language). -/
def transcribeResult (language : Option (List Char)) (info : WhisperInfo)
    (raw : List RawSegment) : TranscriptionResult :=
  { duration := info.duration.map round2
    language :=
      match info.language with
      | some l => if l = [] then language else some l
      | none => language
    segments := (shapeSegments raw).1
    text := pyStrip (joinSep [' '] (shapeSegments raw).2) }

/-- Decimal digit character, for `d < 10`. -/
def digitChar (d : ℕ) : Char := Char.ofNat (48 + d)

/-- Little-endian decimal digits, with explicit fuel so that the kernel
can evaluate it. -/
def natDigitsRev : ℕ → ℕ → List Char
  | 0, _ => []
  | fuel + 1, n => if n = 0 then [] else digitChar (n % 10) :: natDigitsRev fuel (n / 10)

/-- Decimal rendering of a natural number, modelling Python `str`. -/
def natToChars (n : ℕ) : List Char :=
  if n = 0 then ['0'] else (natDigitsRev (n + 1) n).reverse

/-- Left zero-padding to width `w`. -/
def zeroPad (w : ℕ) (l : List Char) : List Char :=
  List.replicate (w - l.length) '0' ++ l

/-- Python `format(z, "0Nd")`: optional sign, then zeros to total width
`w`. -/
def fmtPad (w : ℕ) (z : ℤ) : List Char :=
  if z < 0 then '-' :: zeroPad (w - 1) (natToChars z.natAbs)
  else zeroPad w (natToChars z.natAbs)

/-- Python float floor division, as a rational. -/
def pyFloorDiv (t d : ℚ) : ℚ := (⌊t / d⌋ : ℚ)

/-- Python float modulo (sign of the divisor). -/
def pyMod (t d : ℚ) : ℚ := t - d * ⌊t / d⌋

/-- Python `int` truncation toward zero. -/
def pyInt (t : ℚ) : ℤ := if t < 0 then ⌈t⌉ else ⌊t⌋

/-- The `fmt` helper of `write_srt`. -/
def fmtTimestamp (t : ℚ) : List Char :=
  fmtPad 2 (pyInt (pyFloorDiv t 3600)) ++ ':' ::
    fmtPad 2 (pyInt (pyFloorDiv (pyMod t 3600) 60)) ++ ':' ::
    fmtPad 2 (pyInt (pyMod t 60)) ++ ',' ::
    fmtPad 3 (pyRoundQ ((t - (pyInt t : ℚ)) * 1000))

/-- Timing line of one block. -/
def timingLine (s : Segment) : List Char :=
  fmtTimestamp s.start ++ " --> ".toList ++ fmtTimestamp s.stop

/-- The four lines one segment contributes: index, timing line, text,
blank separator. -/
def srtBlock (i : ℕ) (s : Segment) : List Char :=
  natToChars i ++ '\n' :: timingLine s ++ '\n' :: s.text ++ ['\n', '\n']

/-- Blocks of the whole list, indices counting from `i`. -/
def srtBlocks (i : ℕ) : List Segment → List (List Char)
  | [] => []
  | s :: rest => srtBlock i s :: srtBlocks (i + 1) rest

/-- File content produced by `write_srt`
(`enumerate(segments, start=1)`). -/
def writeSrt (segments : List Segment) : List Char :=
  (srtBlocks 1 segments).flatten

/-- Timestamp rendering as the spec words it: the total seconds,
floor-divided into hours, minutes and seconds, and the fractional
remainder rounded to the nearest millisecond, all zero-padded to
`HH:MM:SS,mmm`. -/
def specTimestamp (t : ℚ) : List Char :=
  fmtPad 2 ((⌊t⌋.toNat / 3600 : ℕ) : ℤ) ++ ':' ::
    fmtPad 2 ((⌊t⌋.toNat % 3600 / 60 : ℕ) : ℤ) ++ ':' ::
    fmtPad 2 ((⌊t⌋.toNat % 60 : ℕ) : ℤ) ++ ',' ::
    fmtPad 3 (pyRoundQ ((t - (⌊t⌋.toNat : ℚ)) * 1000))

/-- Rendering of a whole number `n` of milliseconds as a timestamp, in
pure natural arithmetic. -/
def natTs (n : ℕ) : List Char :=
  fmtPad 2 ((n / 3600000 : ℕ) : ℤ) ++ ':' ::
    fmtPad 2 ((n % 3600000 / 60000 : ℕ) : ℤ) ++ ':' ::
    fmtPad 2 ((n % 60000 / 1000 : ℕ) : ℤ) ++ ',' ::
    fmtPad 3 ((n % 1000 : ℕ) : ℤ)

/-- The accepted pattern as the spec words it: scheme `http` or `https`,
then `://`, an optional `www.` prefix, the host `instagram.com`, a path
of exactly `/reel/` or `/reels/` followed by one identifier segment of
alphanumerics, `-` and `_`, and an optional trailing slash — compared
ignoring ASCII case. -/
def acceptedPattern (l : List Char) : Prop :=
  ∃ (ssl www plural slash : Bool) (ident : List Char),
    ident ≠ [] ∧ (∀ c ∈ ident, isIdentChar c = true) ∧
    l.map asciiLower =
      (if ssl then "https".toList else "http".toList) ++ "://".toList ++
      (if www then "www.".toList else []) ++ "instagram.com".toList ++
      (if plural then "/reels/".toList else "/reel/".toList) ++ ident ++
      (if slash then ['/'] else [])

/-- Value of a decimal digit string (most significant first). -/
def digitsVal (l : List Char) : ℕ :=
  l.foldl (fun x c => 10 * x + (c.toNat - 48)) 0

/-- Read a nonempty all-digit string back as a natural number. -/
def parseDigits (l : List Char) : Option ℕ :=
  if l ≠ [] ∧ l.all isDigitA = true then some (digitsVal l) else none

/-- Read an `HH:MM:SS,mmm` timestamp back into seconds. -/
def parseTimestamp (l : List Char) : Option ℚ :=
  match splitOnChar ':' l with
  | [hh, mm, rest] =>
    match splitOnChar ',' rest with
    | [ss, mmm] =>
      match parseDigits hh, parseDigits mm, parseDigits ss, parseDigits mmm with
      | some h, some m, some s, some ms =>
        some (((h * 3600 + m * 60 + s : ℕ) : ℚ) + ((ms : ℕ) : ℚ) / 1000)
      | _, _, _, _ => none
    | _ => none
  | _ => none

/-- Read a `start --> end` timing line back. -/
def parseTimingLine (l : List Char) : Option (ℚ × ℚ) :=
  match dropLit " --> ".toList (l.dropWhile (notChar ' ')) with
  | some b =>
    match parseTimestamp (l.takeWhile (notChar ' ')), parseTimestamp b with
    | some x, some y => some (x, y)
    | _, _ => none
  | none => none

/-- Re-parse the numbered four-line blocks from the file's lines (the
last line is the empty string following the final separator). -/
def parseBlocks : List (List Char) → Option (List Segment)
  | [l] => if l = [] then some [] else none
  | idx :: ts :: txt :: sepLine :: rest =>
    if sepLine = [] then
      match parseDigits idx, parseTimingLine ts, parseBlocks rest with
      | some i, some tt, some segs => some (⟨i, tt.1, tt.2, txt⟩ :: segs)
      | _, _, _ => none
    else none
  | _ => none

/-- Split the written file into lines and re-parse the blocks. -/
def parseSrt (content : List Char) : Option (List Segment) :=
  parseBlocks (splitOnChar '\n' content)

/-! ## List and splitting lemmas -/

theorem dropLit_eq_some {p l r : List Char} : dropLit p l = some r ↔ l = p ++ r := by
  induction p generalizing l with
  | nil => simp [dropLit]
  | cons a as ih =>
    cases l with
    | nil => simp [dropLit]
    | cons c cs =>
      by_cases h : c = a
      · subst h
        simp only [dropLit, if_pos rfl, List.cons_append, List.cons.injEq, true_and]
        exact ih
      · simp [dropLit, h, Ne.symm h]

theorem notChar_eq_true {sep c : Char} (h : c ≠ sep) : notChar sep c = true := by
  simp [notChar, h]

theorem notChar_eq_false (sep : Char) : notChar sep sep = false := by
  simp [notChar]

theorem takeWhile_append_of_all {p : Char → Bool} {a : List Char} {b : Char} {r : List Char}
    (ha : ∀ c ∈ a, p c = true) (hb : p b = false) :
    (a ++ b :: r).takeWhile p = a := by
  induction a with
  | nil => simp [List.takeWhile_cons, hb]
  | cons x xs ih =>
    have hx : p x = true := ha x (by simp)
    rw [List.cons_append, List.takeWhile_cons, hx, if_pos rfl]
    exact congrArg (x :: ·) (ih fun c hc => ha c (by simp [hc]))

theorem dropWhile_append_of_all {p : Char → Bool} {a : List Char} {b : Char} {r : List Char}
    (ha : ∀ c ∈ a, p c = true) (hb : p b = false) :
    (a ++ b :: r).dropWhile p = b :: r := by
  induction a with
  | nil => simp [List.dropWhile_cons, hb]
  | cons x xs ih =>
    have hx : p x = true := ha x (by simp)
    rw [List.cons_append, List.dropWhile_cons, hx, if_pos rfl]
    exact ih fun c hc => ha c (by simp [hc])

theorem takeWhile_eq_self_of_all {p : Char → Bool} {a : List Char}
    (ha : ∀ c ∈ a, p c = true) : a.takeWhile p = a :=
  List.takeWhile_eq_self_iff.mpr ha

theorem dropWhile_eq_nil_of_all {p : Char → Bool} {a : List Char}
    (ha : ∀ c ∈ a, p c = true) : a.dropWhile p = [] :=
  List.dropWhile_eq_nil_iff.mpr ha

theorem splitOnce_of_not_mem {sep : Char} {l : List Char} (h : sep ∉ l) :
    splitOnce sep l = (l, none) := by
  have hd : l.dropWhile (notChar sep) = [] :=
    dropWhile_eq_nil_of_all fun c hc => notChar_eq_true (fun hcs => h (hcs ▸ hc))
  unfold splitOnce
  rw [hd]

theorem splitOnce_append {sep : Char} {a r : List Char} (h : sep ∉ a) :
    splitOnce sep (a ++ sep :: r) = (a, some r) := by
  have hall : ∀ c ∈ a, notChar sep c = true :=
    fun c hc => notChar_eq_true (fun hcs => h (hcs ▸ hc))
  have hd := dropWhile_append_of_all (r := r) hall (notChar_eq_false sep)
  have ht := takeWhile_append_of_all (r := r) hall (notChar_eq_false sep)
  unfold splitOnce
  rw [hd, ht]

theorem splitOnChar_ne_nil (sep : Char) (l : List Char) : splitOnChar sep l ≠ [] := by
  cases l with
  | nil => simp [splitOnChar]
  | cons c r =>
    by_cases h : c = sep <;> simp [splitOnChar, h]

theorem splitOnChar_of_not_mem {sep : Char} {l : List Char} (h : sep ∉ l) :
    splitOnChar sep l = [l] := by
  induction l with
  | nil => rfl
  | cons c r ih =>
    have hc : ¬ c = sep := fun hcs => h (by simp [hcs])
    have hr : sep ∉ r := fun hrs => h (by simp [hrs])
    simp [splitOnChar, hc, ih hr]

theorem splitOnChar_append {sep : Char} {a r : List Char} (h : sep ∉ a) :
    splitOnChar sep (a ++ sep :: r) = a :: splitOnChar sep r := by
  induction a with
  | nil => simp [splitOnChar]
  | cons c cs ih =>
    have hc : ¬ c = sep := fun hcs => h (by simp [hcs])
    have hcs : sep ∉ cs := fun hx => h (by simp [hx])
    rw [List.cons_append]
    simp only [splitOnChar, hc, if_false]
    rw [ih hcs]
    simp [List.headI]

theorem splitOnChar_cons_sep (sep : Char) (r : List Char) :
    splitOnChar sep (sep :: r) = [] :: splitOnChar sep r := by
  simp [splitOnChar]

theorem splitOnChar_cons_ne {sep c : Char} (h : ¬ c = sep) (r : List Char) :
    splitOnChar sep (c :: r) =
      (c :: (splitOnChar sep r).headI) :: (splitOnChar sep r).tail := by
  simp [splitOnChar, h]

theorem splitOnChar_sep_not_mem {sep : Char} {l x : List Char}
    (hx : x ∈ splitOnChar sep l) : sep ∉ x := by
  induction l generalizing x with
  | nil =>
    simp only [splitOnChar, List.mem_singleton] at hx
    subst hx; simp
  | cons c r ih =>
    obtain ⟨y, ys, hys⟩ := List.exists_cons_of_ne_nil (splitOnChar_ne_nil sep r)
    by_cases h : c = sep
    · subst h
      rw [splitOnChar_cons_sep, List.mem_cons] at hx
      rcases hx with rfl | hx
      · simp
      · exact ih hx
    · rw [splitOnChar_cons_ne h, hys, List.headI, List.tail_cons, List.mem_cons] at hx
      rcases hx with rfl | hx
      · intro hmem
        rcases List.mem_cons.mp hmem with rfl | hmem
        · exact h rfl
        · exact ih (hys ▸ List.mem_cons_self y ys) hmem
      · exact ih (hys ▸ List.mem_cons_of_mem y hx)

theorem splitOnChar_subset {sep : Char} {l x : List Char}
    (hx : x ∈ splitOnChar sep l) : ∀ c ∈ x, c ∈ l := by
  induction l generalizing x with
  | nil =>
    simp only [splitOnChar, List.mem_singleton] at hx
    subst hx; simp
  | cons a r ih =>
    obtain ⟨y, ys, hys⟩ := List.exists_cons_of_ne_nil (splitOnChar_ne_nil sep r)
    by_cases h : a = sep
    · subst h
      rw [splitOnChar_cons_sep, List.mem_cons] at hx
      rcases hx with rfl | hx
      · simp
      · exact fun c hc => by simp [ih hx c hc]
    · rw [splitOnChar_cons_ne h, hys, List.headI, List.tail_cons, List.mem_cons] at hx
      rcases hx with rfl | hx
      · intro c hc
        rcases List.mem_cons.mp hc with rfl | hc
        · simp
        · simp [ih (hys ▸ List.mem_cons_self y ys) c hc]
      · exact fun c hc => by simp [ih (hys ▸ List.mem_cons_of_mem y hx) c hc]

/-! ## URL normalizer: failure and success shape -/

theorem urlunsplit_reel (s h rid : List Char) (hs : s ≠ []) (hh : h ≠ []) :
    urlunsplit ⟨s, h, "/reel/".toList ++ rid, [], []⟩ =
      s ++ "://".toList ++ h ++ "/reel/".toList ++ rid := by
  unfold urlunsplit
  simp [hs, hh]

/-- C6: an input whose path segments (split on `/`, empties discarded)
contain neither `reel` nor `reels`, or whose selected `reel`/`reels`
segment is the last segment, makes `normalize` fail with the
`InvalidURL` error. -/
theorem c6_no_reel_segment_invalid (u : List Char) (p : SplitResult)
    (hp : urlsplit u = .ok p)
    (hcond : ("reel".toList ∉ pathParts p.path ∧ "reels".toList ∉ pathParts p.path) ∨
      ("reel".toList ∈ pathParts p.path ∧
        (pathParts p.path).indexOf "reel".toList + 1 = (pathParts p.path).length) ∨
      ("reel".toList ∉ pathParts p.path ∧ "reels".toList ∈ pathParts p.path ∧
        (pathParts p.path).indexOf "reels".toList + 1 = (pathParts p.path).length)) :
    cleanInstagramReelUrl u =
      .error "URL does not contain a valid Instagram reel id.".toList := by
  have hloc : locateReelId (pathParts p.path) = none := by
    rcases hcond with ⟨h1, h2⟩ | ⟨h1, h2⟩ | ⟨h1, h2, h3⟩
    · unfold locateReelId
      rw [if_neg h1, if_neg h2]
    · unfold locateReelId
      rw [if_pos h1]
      exact List.getElem?_eq_none h2.ge
    · unfold locateReelId
      rw [if_neg h1, if_pos h2]
      exact List.getElem?_eq_none h3.ge
  simp [cleanInstagramReelUrl, hp, hloc]

/-- Witness for C6 at the spec's two examples: a path without a reel
segment, and a reel segment with no identifier after it. -/
theorem c6_no_reel_segment_invalid_witness :
    cleanInstagramReelUrl "https://instagram.com/p/ABC123/".toList =
      .error "URL does not contain a valid Instagram reel id.".toList ∧
    cleanInstagramReelUrl "https://www.instagram.com/reel/".toList =
      .error "URL does not contain a valid Instagram reel id.".toList := by
  constructor
  · exact c6_no_reel_segment_invalid _
      ⟨"https".toList, "instagram.com".toList, "/p/ABC123/".toList, [], []⟩
      (by decide) (by decide)
  · exact c6_no_reel_segment_invalid _
      ⟨"https".toList, "www.instagram.com".toList, "/reel/".toList, [], []⟩
      (by decide) (by decide)

/-- C7: an input with a `reel` (preferred, else `reels`) segment followed
by an identifier segment normalizes to
`<scheme>://<host>/reel/<identifier>`, defaulting the scheme to `https`
and the host to `www.instagram.com` when absent. -/
theorem c7_canonical_rebuild (u : List Char) (p : SplitResult) (i : ℕ)
    (hp : urlsplit u = .ok p)
    (hi : i + 1 < (pathParts p.path).length)
    (hsel : ("reel".toList ∈ pathParts p.path ∧
              i = (pathParts p.path).indexOf "reel".toList) ∨
            ("reel".toList ∉ pathParts p.path ∧ "reels".toList ∈ pathParts p.path ∧
              i = (pathParts p.path).indexOf "reels".toList)) :
    cleanInstagramReelUrl u =
      .ok ((if p.scheme = [] then "https".toList else p.scheme) ++ "://".toList ++
           (if p.netloc = [] then "www.instagram.com".toList else p.netloc) ++
           "/reel/".toList ++ (pathParts p.path).get ⟨i + 1, hi⟩) := by
  have hloc : locateReelId (pathParts p.path) =
      some ((pathParts p.path).get ⟨i + 1, hi⟩) := by
    rcases hsel with ⟨h1, rfl⟩ | ⟨h1, h2, rfl⟩
    · unfold locateReelId
      rw [if_pos h1, List.getElem?_eq_getElem hi]
      simp
    · unfold locateReelId
      rw [if_neg h1, if_pos h2, List.getElem?_eq_getElem hi]
      simp
  have hs : (if p.scheme = [] then "https".toList else p.scheme) ≠ [] := by
    by_cases h : p.scheme = [] <;> simp [h]
  have hh : (if p.netloc = [] then "www.instagram.com".toList else p.netloc) ≠ [] := by
    by_cases h : p.netloc = [] <;> simp [h]
  simp only [cleanInstagramReelUrl, hp, hloc, urlunsplit_reel _ _ _ hs hh]

/-- Witness for C7: the spec's example URL normalizes with the trailing
slash removed. -/
theorem c7_canonical_rebuild_witness :
    cleanInstagramReelUrl "https://www.instagram.com/reel/ABC123/".toList =
      .ok "https://www.instagram.com/reel/ABC123".toList := by
  have h := c7_canonical_rebuild "https://www.instagram.com/reel/ABC123/".toList
    ⟨"https".toList, "www.instagram.com".toList, "/reel/ABC123/".toList, [], []⟩ 0
    (by decide) (by decide) (Or.inl (by decide))
  rw [h]
  rfl

/-! ## Model cache and API loop -/

/-- C2 counterexample: after a first call with `("small", "int8")`, the
first call with the pair `("medium", "float16")` does not construct a
model for that pair — it returns the cached instance built for
`("small", "int8")`. -/
theorem c2_counterexample_pair_ignored :
    getModel (fun s c => .ok ⟨s, c⟩) none "small" "int8" =
      (.ok ⟨"small", "int8"⟩, some ⟨"small", "int8"⟩) ∧
    getModel (fun s c => .ok ⟨s, c⟩) (some ⟨"small", "int8"⟩) "medium" "float16" =
      (.ok ⟨"small", "int8"⟩, some ⟨"small", "int8"⟩) ∧
    (⟨"small", "int8"⟩ : WhisperModel) ≠ ⟨"medium", "float16"⟩ := by
  refine ⟨rfl, rfl, ?_⟩
  intro h
  simpa using congrArg WhisperModel.modelSize h

/-- C2 (amended): `get_model` keeps one process-wide slot: the first call
constructs the model from that call's arguments and caches it; every
later call returns the cached instance whatever its arguments are; a
failed construction fails only that call and leaves the slot empty. -/
theorem c2_single_process_wide_cache :
    (∀ (ctor : String → String → Except String WhisperModel) (size ct : String)
      (m : WhisperModel), ctor size ct = .ok m →
        getModel ctor none size ct = (.ok m, some m)) ∧
    (∀ (ctor : String → String → Except String WhisperModel) (size ct : String)
      (m : WhisperModel), getModel ctor (some m) size ct = (.ok m, some m)) ∧
    (∀ (ctor : String → String → Except String WhisperModel) (size ct : String)
      (e : String), ctor size ct = .error e →
        getModel ctor none size ct = (.error e, none)) := by
  refine ⟨?_, ?_, ?_⟩
  · intro ctor size ct m h
    simp [getModel, h]
  · intro ctor size ct m
    rfl
  · intro ctor size ct e h
    simp [getModel, h]

/-- Witness for the amended C2 at concrete calls: construction and
caching, reuse regardless of the argument pair, and a non-cached
failure. -/
theorem c2_single_process_wide_cache_witness :
    getModel (fun s c => .ok ⟨s, c⟩) none "small" "int8" =
      (.ok ⟨"small", "int8"⟩, some ⟨"small", "int8"⟩) ∧
    getModel (fun s c => .ok ⟨s, c⟩) (some ⟨"tiny", "float32"⟩) "small" "int8" =
      (.ok ⟨"tiny", "float32"⟩, some ⟨"tiny", "float32"⟩) ∧
    getModel (fun _ _ => .error "construction failed") none "small" "int8" =
      (.error "construction failed", none) :=
  ⟨c2_single_process_wide_cache.1 _ "small" "int8" _ rfl,
   c2_single_process_wide_cache.2.1 _ "small" "int8" _,
   c2_single_process_wide_cache.2.2 _ "small" "int8" _ rfl⟩

/-- C3: when every URL before `u` succeeds and `u` fails with `e`, the
API responds with HTTP 400 and a detail naming `u` and the cause; no
result list is returned, and the conclusion holds for every behaviour of
the processing on the URLs after `u`, which are therefore never
attempted. -/
theorem c3_api_batch_aborts_on_first_failure {R : Type}
    (step : List Char → Except (List Char) R)
    (pre : List (List Char)) (u : List Char) (post : List (List Char)) (e : List Char)
    (hpre : ∀ v ∈ pre, ∃ r, step v = .ok r)
    (hu : step u = .error e) :
    apiTranscribe step (pre ++ u :: post) =
      .httpError 400 ("Failed for ".toList ++ u ++ ": ".toList ++ e) := by
  induction pre with
  | nil => simp [apiTranscribe, hu]
  | cons v vs ih =>
    obtain ⟨r, hr⟩ := hpre v (by simp)
    have htail := ih fun w hw => hpre w (by simp [hw])
    simp [apiTranscribe, hr, htail]

/-- Witness for C3: a batch of one valid and one malformed URL, processed
by the modelled URL-validation pipeline, yields the 400 naming the
malformed URL; the valid URL's result is not returned. -/
theorem c3_api_batch_aborts_on_first_failure_witness :
    apiTranscribe downloadAudioValidate
      ["https://www.instagram.com/reel/ABC123/".toList,
       "https://instagram.com/p/XYZ/".toList] =
      .httpError 400 ("Failed for ".toList ++ "https://instagram.com/p/XYZ/".toList ++
        ": ".toList ++ "URL does not contain a valid Instagram reel id.".toList) := by
  have h := c3_api_batch_aborts_on_first_failure downloadAudioValidate
    ["https://www.instagram.com/reel/ABC123/".toList]
    "https://instagram.com/p/XYZ/".toList []
    "URL does not contain a valid Instagram reel id.".toList
    (by
      intro v hv
      rw [List.mem_singleton] at hv
      subst hv
      exact ⟨"https://www.instagram.com/reel/ABC123".toList, by decide⟩)
    (by decide)
  simpa using h

/-! ## Stripping, joining and the transcription text -/

theorem dropWhile_idem (p : Char → Bool) (l : List Char) :
    (l.dropWhile p).dropWhile p = l.dropWhile p := by
  induction l with
  | nil => rfl
  | cons c r ih =>
    cases hc : p c
    · rw [List.dropWhile_cons, if_neg (by simp [hc]), List.dropWhile_cons,
        if_neg (by simp [hc])]
    · rw [List.dropWhile_cons, if_pos hc]
      exact ih

theorem dropWhile_append_singleton {p : Char → Bool} {b : Char} (hb : p b = false)
    (a : List Char) : (a ++ [b]).dropWhile p = a.dropWhile p ++ [b] := by
  induction a with
  | nil => simp [List.dropWhile_cons, hb]
  | cons x xs ih =>
    cases hx : p x
    · simp [List.dropWhile_cons, hx]
    · simp [List.dropWhile_cons, hx, ih]

theorem length_dropWhile_le (p : Char → Bool) (l : List Char) :
    (l.dropWhile p).length ≤ l.length := by
  induction l with
  | nil => simp
  | cons c r ih =>
    cases hc : p c
    · rw [List.dropWhile_cons, if_neg (by simp [hc])]
    · rw [List.dropWhile_cons, if_pos hc]
      exact Nat.le_succ_of_le ih

theorem head_false_of_dropWhile_eq_self {p : Char → Bool} {c : Char} {cs : List Char}
    (h : (c :: cs).dropWhile p = c :: cs) : p c = false := by
  cases hc : p c
  · rfl
  · exfalso
    rw [List.dropWhile_cons, if_pos hc] at h
    have h1 : (cs.dropWhile p).length = cs.length + 1 := by rw [h]; simp
    have h2 := length_dropWhile_le p cs
    omega

theorem noLead_append {p : Char → Bool} {x : List Char} (hx : x.dropWhile p = x)
    (hne : x ≠ []) (y : List Char) : (x ++ y).dropWhile p = x ++ y := by
  obtain ⟨c, cs, rfl⟩ := List.exists_cons_of_ne_nil hne
  have hc := head_false_of_dropWhile_eq_self hx
  simp [List.dropWhile_cons, hc]

theorem noTrail_append {p : Char → Bool} {y : List Char}
    (hy : y.reverse.dropWhile p = y.reverse) (hne : y ≠ []) (x : List Char) :
    (x ++ y).reverse.dropWhile p = (x ++ y).reverse := by
  rw [List.reverse_append]
  exact noLead_append hy (by simpa using hne) x.reverse

theorem pyStrip_eq_self {l : List Char} (h1 : l.dropWhile pyIsSpace = l)
    (h2 : l.reverse.dropWhile pyIsSpace = l.reverse) : pyStrip l = l := by
  unfold pyStrip
  rw [h1, h2, List.reverse_reverse]

theorem pyStrip_noLead (l : List Char) :
    (pyStrip l).dropWhile pyIsSpace = pyStrip l := by
  unfold pyStrip
  cases hx : l.dropWhile pyIsSpace with
  | nil => simp
  | cons c cs =>
    have hc : pyIsSpace c = false := by
      have hidem := dropWhile_idem pyIsSpace l
      rw [hx] at hidem
      exact head_false_of_dropWhile_eq_self hidem
    rw [List.reverse_cons, dropWhile_append_singleton hc, List.reverse_append]
    simp [List.dropWhile_cons, hc]

theorem pyStrip_noTrail (l : List Char) :
    (pyStrip l).reverse.dropWhile pyIsSpace = (pyStrip l).reverse := by
  unfold pyStrip
  rw [List.reverse_reverse]
  exact dropWhile_idem pyIsSpace _

theorem joinSep_ne_nil {sep : List Char} {parts : List (List Char)}
    (hne : parts ≠ []) (hq : ∀ q ∈ parts, q ≠ []) : joinSep sep parts ≠ [] := by
  match parts with
  | [x] => exact hq x (by simp)
  | x :: y :: ys =>
    have hx := hq x (by simp)
    simp only [joinSep, ne_eq, List.append_eq_nil, not_and]
    intro h
    exact absurd h.1 hx

theorem joinSep_noLead {parts : List (List Char)}
    (hq : ∀ q ∈ parts, q ≠ [] ∧ q.dropWhile pyIsSpace = q) :
    (joinSep [' '] parts).dropWhile pyIsSpace = joinSep [' '] parts := by
  match parts with
  | [] => rfl
  | [x] => exact (hq x (by simp)).2
  | x :: y :: ys =>
    obtain ⟨hx1, hx2⟩ := hq x (by simp)
    have hj : joinSep [' '] (x :: y :: ys) = x ++ ([' '] ++ joinSep [' '] (y :: ys)) := by
      simp [joinSep]
    rw [hj]
    exact noLead_append hx2 hx1 _

theorem joinSep_noTrail {parts : List (List Char)}
    (hq : ∀ q ∈ parts, q ≠ [] ∧ q.reverse.dropWhile pyIsSpace = q.reverse) :
    (joinSep [' '] parts).reverse.dropWhile pyIsSpace =
      (joinSep [' '] parts).reverse := by
  match parts with
  | [] => rfl
  | [x] => exact (hq x (by simp)).2
  | x :: y :: ys =>
    have ihy : (joinSep [' '] (y :: ys)).reverse.dropWhile pyIsSpace =
        (joinSep [' '] (y :: ys)).reverse :=
      joinSep_noTrail fun q hqm => hq q (by simp [List.mem_cons] at hqm ⊢; tauto)
    have hne : joinSep [' '] (y :: ys) ≠ [] :=
      joinSep_ne_nil (by simp) fun q hqm => (hq q (by simp [List.mem_cons] at hqm ⊢; tauto)).1
    have hj : joinSep [' '] (x :: y :: ys) = (x ++ [' ']) ++ joinSep [' '] (y :: ys) := by
      simp [joinSep, List.append_assoc]
    rw [hj]
    exact noTrail_append ihy hne _

theorem pyStrip_joinSep_eq {parts : List (List Char)}
    (hq : ∀ q ∈ parts, q ≠ [] ∧ q.dropWhile pyIsSpace = q ∧
      q.reverse.dropWhile pyIsSpace = q.reverse) :
    pyStrip (joinSep [' '] parts) = joinSep [' '] parts :=
  pyStrip_eq_self (joinSep_noLead fun q h => ⟨(hq q h).1, (hq q h).2.1⟩)
    (joinSep_noTrail fun q h => ⟨(hq q h).1, (hq q h).2.2⟩)

theorem shapeSegments_snd_eq (raw : List RawSegment) :
    (shapeSegments raw).2 = (raw.map fun r => pyStrip r.text).filter (· ≠ []) := by
  induction raw with
  | nil => rfl
  | cons r rest ih =>
    by_cases h : pyStrip r.text = [] <;> simp [shapeSegments, h, ih]

theorem shapeSegments_snd_mem {raw : List RawSegment} {q : List Char}
    (hq : q ∈ (shapeSegments raw).2) :
    q ≠ [] ∧ q.dropWhile pyIsSpace = q ∧ q.reverse.dropWhile pyIsSpace = q.reverse := by
  rw [shapeSegments_snd_eq] at hq
  obtain ⟨hmem, hne⟩ := List.mem_filter.mp hq
  obtain ⟨r, _, rfl⟩ := List.mem_map.mp hmem
  exact ⟨by simpa using hne, pyStrip_noLead _, pyStrip_noTrail _⟩

theorem shapeSegments_fst_length (raw : List RawSegment) :
    (shapeSegments raw).1.length = raw.length := by
  induction raw with
  | nil => rfl
  | cons r rest ih => simp [shapeSegments, ih]

theorem shapeSegments_fst_getElem (raw : List RawSegment) (i : ℕ) :
    ((shapeSegments raw).1[i]?).map Segment.text = (raw[i]?).map fun r => pyStrip r.text := by
  induction raw generalizing i with
  | nil => rfl
  | cons r rest ih =>
    cases i with
    | zero => simp [shapeSegments]
    | succ j => simpa [shapeSegments] using ih j

theorem srtBlocks_length (j : ℕ) (segs : List Segment) :
    (srtBlocks j segs).length = segs.length := by
  induction segs generalizing j with
  | nil => rfl
  | cons s rest ih => simp [srtBlocks, ih]

theorem srtBlocks_getElem (j i : ℕ) (segs : List Segment) :
    (srtBlocks j segs)[i]? = (segs[i]?).map fun sg => srtBlock (j + i) sg := by
  induction segs generalizing j i with
  | nil => rfl
  | cons s rest ih =>
    cases i with
    | zero => simp [srtBlocks]
    | succ k =>
      have h := ih (j + 1) k
      have h2 : j + 1 + k = j + (k + 1) := by omega
      rw [h2] at h
      simp [srtBlocks, h]

/-- C8: the result's `text` is the space-joined concatenation of the
non-empty (after stripping) segment texts in segment order; at the spec's
example it equals `Hi there`. -/
theorem c8_text_space_joined :
    (∀ (language : Option (List Char)) (info : WhisperInfo) (raw : List RawSegment),
      (transcribeResult language info raw).text =
        joinSep " ".toList ((raw.map fun r => pyStrip r.text).filter (· ≠ []))) ∧
    (transcribeResult none ⟨none, none⟩
      [⟨0, 0, 1, "Hi".toList⟩, ⟨1, 1, 2, "there".toList⟩]).text = "Hi there".toList := by
  constructor
  · intro language info raw
    show pyStrip (joinSep [' '] (shapeSegments raw).2) = _
    rw [pyStrip_joinSep_eq fun q hq => shapeSegments_snd_mem hq, shapeSegments_snd_eq]
    rfl
  · rfl

/-- C10: every raw segment yields exactly one shaped segment (empty
stripped text included, with the stripped text at the same position) and
exactly one subtitle block, the 0-based i-th block carrying the 1-based
index `1 + i`; the block of an empty-text segment has an empty text
line. -/
theorem c10_one_block_per_segment :
    (∀ (language : Option (List Char)) (info : WhisperInfo) (raw : List RawSegment),
      (transcribeResult language info raw).segments.length = raw.length ∧
      ∀ i : ℕ, ((transcribeResult language info raw).segments[i]?).map Segment.text =
        (raw[i]?).map fun r => pyStrip r.text) ∧
    (∀ segs : List Segment, (srtBlocks 1 segs).length = segs.length ∧
      ∀ i : ℕ, (srtBlocks 1 segs)[i]? = (segs[i]?).map fun sg => srtBlock (1 + i) sg) ∧
    (∀ (i : ℕ) (sg : Segment), sg.text = [] →
      srtBlock i sg = natToChars i ++ '\n' :: timingLine sg ++ '\n' :: '\n' :: '\n' :: []) := by
  refine ⟨?_, ?_, ?_⟩
  · intro language info raw
    exact ⟨shapeSegments_fst_length raw, fun i => shapeSegments_fst_getElem raw i⟩
  · intro segs
    exact ⟨srtBlocks_length 1 segs, fun i => srtBlocks_getElem 1 i segs⟩
  · intro i sg h
    simp [srtBlock, h]

/-- Witness for C10 at a concrete empty-text segment. -/
theorem c10_one_block_per_segment_witness :
    srtBlock 1 ⟨0, 0, 1, []⟩ =
      natToChars 1 ++ '\n' :: timingLine ⟨0, 0, 1, []⟩ ++ '\n' :: '\n' :: '\n' :: [] :=
  c10_one_block_per_segment.2.2 1 ⟨0, 0, 1, []⟩ rfl

/-! ## Timestamp formatting -/

theorem pyInt_intCast (k : ℤ) : pyInt (k : ℚ) = k := by
  unfold pyInt
  rcases lt_or_ge ((k : ℚ)) 0 with h | h
  · rw [if_pos h, Int.ceil_intCast]
  · rw [if_neg (not_lt.mpr h), Int.floor_intCast]

theorem pyInt_of_nonneg {x : ℚ} (h : 0 ≤ x) : pyInt x = ⌊x⌋ := by
  unfold pyInt
  rw [if_neg (not_lt.mpr h)]

theorem pyRoundQ_intCast (k : ℤ) : pyRoundQ (k : ℚ) = k := by
  unfold pyRoundQ
  rw [Int.floor_intCast]
  rw [if_pos (by norm_num)]

theorem pyRoundQ_natCast (m : ℕ) : pyRoundQ ((m : ℕ) : ℚ) = (m : ℤ) := by
  have h : ((m : ℕ) : ℚ) = ((m : ℤ) : ℚ) := by push_cast; ring
  rw [h, pyRoundQ_intCast]

theorem fmtTimestamp_eq_spec (t : ℚ) (ht : 0 ≤ t) : fmtTimestamp t = specTimestamp t := by
  have hfloor : ⌊t⌋₊ = ⌊t⌋.toNat := (Int.floor_toNat t).symm
  have hNat : ⌊t⌋ = (⌊t⌋.toNat : ℤ) := (Int.toNat_of_nonneg (Int.floor_nonneg.mpr ht)).symm
  have h3600 : (0 : ℚ) ≤ t / 3600 := by positivity
  have h60 : (0 : ℚ) ≤ t / 60 := by positivity
  have hA : pyInt (pyFloorDiv t 3600) = ((⌊t⌋.toNat / 3600 : ℕ) : ℤ) := by
    unfold pyFloorDiv
    rw [pyInt_intCast, ← Int.natCast_floor_eq_floor h3600, Nat.floor_div_ofNat, hfloor]
  have hB : pyInt (pyFloorDiv (pyMod t 3600) 60) = ((⌊t⌋.toNat % 3600 / 60 : ℕ) : ℤ) := by
    unfold pyFloorDiv pyMod
    rw [pyInt_intCast]
    have hsplit : (t - 3600 * ((⌊t / 3600⌋ : ℤ) : ℚ)) / 60 =
        t / 60 - ((60 * ⌊t / 3600⌋ : ℤ) : ℚ) := by
      push_cast
      ring
    rw [hsplit, Int.floor_sub_int, ← Int.natCast_floor_eq_floor h60,
      ← Int.natCast_floor_eq_floor h3600, Nat.floor_div_ofNat, Nat.floor_div_ofNat, hfloor]
    omega
  have hC : pyInt (pyMod t 60) = ((⌊t⌋.toNat % 60 : ℕ) : ℤ) := by
    unfold pyMod
    have hle : ((⌊t / 60⌋ : ℤ) : ℚ) ≤ t / 60 := Int.floor_le (t / 60)
    have hnn : (0 : ℚ) ≤ t - 60 * ((⌊t / 60⌋ : ℤ) : ℚ) := by nlinarith
    rw [pyInt_of_nonneg hnn]
    have hcast : t - 60 * ((⌊t / 60⌋ : ℤ) : ℚ) = t - ((60 * ⌊t / 60⌋ : ℤ) : ℚ) := by
      push_cast
      ring
    rw [hcast, Int.floor_sub_int, ← Int.natCast_floor_eq_floor h60, Nat.floor_div_ofNat,
      hfloor, hNat]
    omega
  have hD : pyInt t = (⌊t⌋.toNat : ℤ) := by
    rw [pyInt_of_nonneg ht]
    exact hNat
  unfold fmtTimestamp specTimestamp
  rw [hA, hB, hC, hD, Int.cast_natCast]

theorem specTimestamp_div1000 (n : ℕ) : specTimestamp ((n : ℚ) / 1000) = natTs n := by
  have hfl : ⌊((n : ℚ) / 1000)⌋.toNat = n / 1000 := by
    rw [Int.floor_toNat, Nat.floor_div_ofNat, Nat.floor_natCast]
  have hms : ((n : ℚ) / 1000 - ((⌊((n : ℚ) / 1000)⌋.toNat : ℕ) : ℚ)) * 1000 =
      ((n % 1000 : ℕ) : ℚ) := by
    rw [hfl]
    have hdm := Nat.div_add_mod n 1000
    have hcast : (1000 : ℚ) * ((n / 1000 : ℕ) : ℚ) + ((n % 1000 : ℕ) : ℚ) = (n : ℚ) := by
      have hq : ((1000 * (n / 1000) + n % 1000 : ℕ) : ℚ) = (n : ℚ) := by rw [hdm]
      push_cast at hq
      linarith
    have hex : ((n : ℚ) / 1000 - ((n / 1000 : ℕ) : ℚ)) * 1000 =
        (n : ℚ) - 1000 * ((n / 1000 : ℕ) : ℚ) := by
      ring
    rw [hex]
    linarith
  unfold specTimestamp natTs
  rw [hms, pyRoundQ_natCast, hfl]
  have e1 : n / 1000 / 3600 = n / 3600000 := by omega
  have e2 : n / 1000 % 3600 / 60 = n % 3600000 / 60000 := by omega
  have e3 : n / 1000 % 60 = n % 60000 / 1000 := by omega
  rw [e1, e2, e3]

theorem fmtTimestamp_div1000 (n : ℕ) : fmtTimestamp ((n : ℚ) / 1000) = natTs n := by
  rw [fmtTimestamp_eq_spec _ (by positivity), specTimestamp_div1000]

/-- C1: for a segment with nonnegative start and end, the timing line
renders both timestamps as `HH:MM:SS,mmm` by floor-dividing the total
seconds into hours/minutes/seconds and rounding the fractional remainder
to the nearest millisecond; the spec's example segment renders
`00:01:01,500 --> 00:01:03,250`. -/
theorem c1_timing_line_format :
    (∀ sg : Segment, 0 ≤ sg.start → 0 ≤ sg.stop →
      timingLine sg = specTimestamp sg.start ++ " --> ".toList ++ specTimestamp sg.stop) ∧
    timingLine ⟨0, 61.5, 63.25, []⟩ = "00:01:01,500 --> 00:01:03,250".toList := by
  constructor
  · intro sg h1 h2
    unfold timingLine
    rw [fmtTimestamp_eq_spec _ h1, fmtTimestamp_eq_spec _ h2]
  · show fmtTimestamp (61.5 : ℚ) ++ " --> ".toList ++ fmtTimestamp (63.25 : ℚ) = _
    rw [show (61.5 : ℚ) = ((61500 : ℕ) : ℚ) / 1000 by norm_num,
      show (63.25 : ℚ) = ((63250 : ℕ) : ℚ) / 1000 by norm_num,
      fmtTimestamp_div1000, fmtTimestamp_div1000]
    decide

/-- Witness for C1 at the spec's example segment, discharging the
nonnegativity hypotheses. -/
theorem c1_timing_line_format_witness :
    (0 : ℚ) ≤ 61.5 ∧ (0 : ℚ) ≤ 63.25 ∧
    timingLine ⟨0, 61.5, 63.25, []⟩ =
      specTimestamp (61.5 : ℚ) ++ " --> ".toList ++ specTimestamp (63.25 : ℚ) :=
  ⟨by norm_num, by norm_num,
   c1_timing_line_format.1 ⟨0, 61.5, 63.25, []⟩ (by norm_num) (by norm_num)⟩

/-! ## Decimal digits round trip -/

theorem toNat_charOfNat {m : ℕ} (h : m < 55296) : (Char.ofNat m).toNat = m := by
  unfold Char.ofNat
  rw [dif_pos (Or.inl h : m.isValidChar)]
  simp [Char.ofNatAux, Char.toNat, UInt32.toNat, BitVec.toNat_ofNatLt]

theorem digitChar_toNat {d : ℕ} (h : d < 10) : (digitChar d).toNat = 48 + d := by
  unfold digitChar
  exact toNat_charOfNat (by omega)

theorem isDigitA_digitChar {d : ℕ} (h : d < 10) : isDigitA (digitChar d) = true := by
  simp only [isDigitA, digitChar_toNat h, Bool.and_eq_true, decide_eq_true_eq]
  omega

theorem mem_natDigitsRev_digit :
    ∀ (fuel n : ℕ) (c : Char), c ∈ natDigitsRev fuel n → isDigitA c = true := by
  intro fuel
  induction fuel with
  | zero =>
    intro n c hc
    simp [natDigitsRev] at hc
  | succ f ih =>
    intro n c hc
    by_cases hn : n = 0
    · simp [natDigitsRev, hn] at hc
    · rw [natDigitsRev, if_neg hn] at hc
      rcases List.mem_cons.mp hc with rfl | hc
      · exact isDigitA_digitChar (Nat.mod_lt n (by norm_num))
      · exact ih (n / 10) c hc

theorem foldl_digits_natDigitsRev :
    ∀ (fuel n : ℕ), n < fuel → ∀ a : ℕ,
      ((natDigitsRev fuel n).reverse).foldl (fun x c => 10 * x + (c.toNat - 48)) a =
        a * 10 ^ (natDigitsRev fuel n).length + n := by
  intro fuel
  induction fuel with
  | zero =>
    intro n h
    exact absurd h (Nat.not_lt_zero n)
  | succ f ih =>
    intro n hn a
    by_cases h0 : n = 0
    · subst h0
      simp [natDigitsRev]
    · rw [natDigitsRev, if_neg h0]
      have hdivlt : n / 10 < n := Nat.div_lt_self (Nat.pos_of_ne_zero h0) (by norm_num)
      have hlt : n / 10 < f := by omega
      rw [List.reverse_cons, List.foldl_append, ih (n / 10) hlt a]
      have hmod : (digitChar (n % 10)).toNat - 48 = n % 10 := by
        rw [digitChar_toNat (Nat.mod_lt n (by norm_num))]
        omega
      have hdm : 10 * (n / 10) + n % 10 = n := Nat.div_add_mod n 10
      simp only [List.foldl_cons, List.foldl_nil, List.length_cons, hmod]
      calc 10 * (a * 10 ^ (natDigitsRev f (n / 10)).length + n / 10) + n % 10
          = a * (10 ^ (natDigitsRev f (n / 10)).length * 10) + (10 * (n / 10) + n % 10) := by
            ring
        _ = a * 10 ^ ((natDigitsRev f (n / 10)).length + 1) + n := by
            rw [pow_succ, hdm]

theorem natToChars_ne_nil (n : ℕ) : natToChars n ≠ [] := by
  unfold natToChars
  by_cases h : n = 0
  · simp [h]
  · rw [if_neg h]
    intro hc
    rw [List.reverse_eq_nil_iff] at hc
    rw [natDigitsRev, if_neg h] at hc
    exact List.noConfusion hc

theorem natToChars_digits {n : ℕ} {c : Char} (hc : c ∈ natToChars n) :
    isDigitA c = true := by
  unfold natToChars at hc
  by_cases h : n = 0
  · rw [if_pos h, List.mem_singleton] at hc
    subst hc
    decide
  · rw [if_neg h, List.mem_reverse] at hc
    exact mem_natDigitsRev_digit _ _ _ hc

theorem digitsVal_natToChars (n : ℕ) : digitsVal (natToChars n) = n := by
  unfold digitsVal natToChars
  by_cases h : n = 0
  · rw [if_pos h, h]
    decide
  · rw [if_neg h]
    have hv := foldl_digits_natDigitsRev (n + 1) n (by omega) 0
    simpa using hv

theorem zeroPad_digits {w : ℕ} {l : List Char} (hl : ∀ c ∈ l, isDigitA c = true) :
    ∀ c ∈ zeroPad w l, isDigitA c = true := by
  intro c hc
  unfold zeroPad at hc
  rcases List.mem_append.mp hc with h | h
  · have hz : c = '0' := List.eq_of_mem_replicate h
    subst hz
    decide
  · exact hl c h

theorem zeroPad_ne_nil {w : ℕ} {l : List Char} (hl : l ≠ []) : zeroPad w l ≠ [] := by
  unfold zeroPad
  simp [hl]

theorem foldl_replicate_zeros (k : ℕ) :
    List.foldl (fun x c => 10 * x + (c.toNat - 48)) 0 (List.replicate k '0') = 0 := by
  induction k with
  | zero => rfl
  | succ m ih => simpa [List.replicate_succ] using ih

theorem digitsVal_zeroPad (w : ℕ) (l : List Char) :
    digitsVal (zeroPad w l) = digitsVal l := by
  unfold digitsVal zeroPad
  rw [List.foldl_append, foldl_replicate_zeros]

theorem parseDigits_zeroPad_natToChars (w m : ℕ) :
    parseDigits (zeroPad w (natToChars m)) = some m := by
  unfold parseDigits
  rw [if_pos ⟨zeroPad_ne_nil (natToChars_ne_nil m),
        List.all_eq_true.mpr (zeroPad_digits fun c hc => natToChars_digits hc)⟩,
    digitsVal_zeroPad, digitsVal_natToChars]

theorem parseDigits_natToChars (m : ℕ) : parseDigits (natToChars m) = some m := by
  unfold parseDigits
  rw [if_pos ⟨natToChars_ne_nil m,
        List.all_eq_true.mpr fun c hc => natToChars_digits hc⟩,
    digitsVal_natToChars]

theorem fmtPad_natCast (w m : ℕ) : fmtPad w ((m : ℕ) : ℤ) = zeroPad w (natToChars m) := by
  unfold fmtPad
  rw [if_neg (not_lt.mpr (Int.natCast_nonneg m)), Int.natAbs_ofNat]

/-! ## Timestamp and timing-line round trip -/

theorem natTs_shape (n : ℕ) :
    natTs n = zeroPad 2 (natToChars (n / 3600000)) ++ ':' ::
      (zeroPad 2 (natToChars (n % 3600000 / 60000)) ++ ':' ::
        (zeroPad 2 (natToChars (n % 60000 / 1000)) ++ ',' ::
          zeroPad 3 (natToChars (n % 1000)))) := by
  unfold natTs
  rw [fmtPad_natCast, fmtPad_natCast, fmtPad_natCast, fmtPad_natCast]
  simp [List.append_assoc]

theorem natTs_chars {n : ℕ} {c : Char} (hc : c ∈ natTs n) :
    isDigitA c = true ∨ c = ':' ∨ c = ',' := by
  rw [natTs_shape] at hc
  have hzp : ∀ {w m : ℕ}, c ∈ zeroPad w (natToChars m) → isDigitA c = true :=
    fun h => zeroPad_digits (fun d hd => natToChars_digits hd) c h
  rcases List.mem_append.mp hc with h | h
  · exact Or.inl (hzp h)
  rcases List.mem_cons.mp h with rfl | h
  · exact Or.inr (Or.inl rfl)
  rcases List.mem_append.mp h with h | h
  · exact Or.inl (hzp h)
  rcases List.mem_cons.mp h with rfl | h
  · exact Or.inr (Or.inl rfl)
  rcases List.mem_append.mp h with h | h
  · exact Or.inl (hzp h)
  rcases List.mem_cons.mp h with rfl | h
  · exact Or.inr (Or.inr rfl)
  · exact Or.inl (hzp h)

theorem natTs_no_newline {n : ℕ} : '\n' ∉ natTs n := by
  intro h
  rcases natTs_chars h with h1 | h1 | h1
  · exact absurd h1 (by decide)
  · exact absurd h1 (by decide)
  · exact absurd h1 (by decide)

theorem natTs_not_space {n : ℕ} {c : Char} (hc : c ∈ natTs n) : notChar ' ' c = true := by
  apply notChar_eq_true
  intro hsp
  subst hsp
  rcases natTs_chars hc with h1 | h1 | h1
  · exact absurd h1 (by decide)
  · exact absurd h1 (by decide)
  · exact absurd h1 (by decide)

theorem zeroPad_digits_no_colon {w m : ℕ} : ':' ∉ zeroPad w (natToChars m) := by
  intro h
  exact absurd (zeroPad_digits (fun d hd => natToChars_digits hd) ':' h) (by decide)

theorem zeroPad_digits_no_comma {w m : ℕ} : ',' ∉ zeroPad w (natToChars m) := by
  intro h
  exact absurd (zeroPad_digits (fun d hd => natToChars_digits hd) ',' h) (by decide)

theorem parseTimestamp_natTs (n : ℕ) :
    parseTimestamp (natTs n) = some ((n : ℚ) / 1000) := by
  have hC : ':' ∉ zeroPad 2 (natToChars (n % 60000 / 1000)) ++ ',' ::
      zeroPad 3 (natToChars (n % 1000)) := by
    intro h
    rcases List.mem_append.mp h with h | h
    · exact zeroPad_digits_no_colon h
    rcases List.mem_cons.mp h with h | h
    · exact absurd h (by decide)
    · exact zeroPad_digits_no_colon h
  have h2 : splitOnChar ',' (zeroPad 2 (natToChars (n % 60000 / 1000)) ++ ',' ::
      zeroPad 3 (natToChars (n % 1000))) =
      [zeroPad 2 (natToChars (n % 60000 / 1000)), zeroPad 3 (natToChars (n % 1000))] := by
    rw [splitOnChar_append zeroPad_digits_no_comma,
      splitOnChar_of_not_mem zeroPad_digits_no_comma]
  rw [parseTimestamp, natTs_shape,
    splitOnChar_append zeroPad_digits_no_colon,
    splitOnChar_append zeroPad_digits_no_colon,
    splitOnChar_of_not_mem hC]
  simp only [h2, parseDigits_zeroPad_natToChars]
  have hsum : n / 3600000 * 3600 + n % 3600000 / 60000 * 60 + n % 60000 / 1000 =
      n / 1000 := by omega
  rw [hsum]
  have h1000 := Nat.div_add_mod n 1000
  have hq : ((1000 * (n / 1000) + n % 1000 : ℕ) : ℚ) = (n : ℚ) := by rw [h1000]
  have hsplit : ((n / 1000 : ℕ) : ℚ) + ((n % 1000 : ℕ) : ℚ) / 1000 =
      ((1000 * (n / 1000) + n % 1000 : ℕ) : ℚ) / 1000 := by
    push_cast
    ring
  rw [hsplit, hq]

theorem timingLine_natTs {sg : Segment} {na nb : ℕ} (ha : sg.start = (na : ℚ) / 1000)
    (hb : sg.stop = (nb : ℚ) / 1000) :
    timingLine sg = natTs na ++ " --> ".toList ++ natTs nb := by
  unfold timingLine
  rw [ha, hb, fmtTimestamp_div1000, fmtTimestamp_div1000]

theorem dropLit_self_append (p r : List Char) : dropLit p (p ++ r) = some r :=
  dropLit_eq_some.mpr rfl

theorem parseTimingLine_natTs (a b : ℕ) :
    parseTimingLine (natTs a ++ " --> ".toList ++ natTs b) =
      some ((a : ℚ) / 1000, (b : ℚ) / 1000) := by
  have harr : natTs a ++ " --> ".toList ++ natTs b =
      natTs a ++ ' ' :: ("-->".toList ++ ' ' :: natTs b) := by
    simp
  have htake : (natTs a ++ ' ' :: ("-->".toList ++ ' ' :: natTs b)).takeWhile (notChar ' ') =
      natTs a :=
    takeWhile_append_of_all (fun c hc => natTs_not_space hc) (notChar_eq_false ' ')
  have hdrop : (natTs a ++ ' ' :: ("-->".toList ++ ' ' :: natTs b)).dropWhile (notChar ' ') =
      ' ' :: ("-->".toList ++ ' ' :: natTs b) :=
    dropWhile_append_of_all (fun c hc => natTs_not_space hc) (notChar_eq_false ' ')
  have hlit : ' ' :: ("-->".toList ++ ' ' :: natTs b) = " --> ".toList ++ natTs b := rfl
  rw [parseTimingLine, harr, hdrop, htake, hlit, dropLit_self_append, parseTimestamp_natTs]
  simp [parseTimestamp_natTs]

/-! ## Subtitle file round trip -/

theorem natToChars_no_newline {n : ℕ} : '\n' ∉ natToChars n := by
  intro h
  exact absurd (natToChars_digits h) (by decide)

theorem timingLine_no_newline {sg : Segment} {na nb : ℕ} (ha : sg.start = (na : ℚ) / 1000)
    (hb : sg.stop = (nb : ℚ) / 1000) : '\n' ∉ timingLine sg := by
  rw [timingLine_natTs ha hb]
  intro h
  rcases List.mem_append.mp h with h | h
  · rcases List.mem_append.mp h with h | h
    · exact natTs_no_newline h
    · exact absurd h (by decide)
  · exact natTs_no_newline h

theorem srtBlocks_flatten_cons (k : ℕ) (sg : Segment) (rest : List Segment) :
    (srtBlocks k (sg :: rest)).flatten =
      natToChars k ++ '\n' :: (timingLine sg ++ '\n' :: (sg.text ++ '\n' :: '\n' ::
        (srtBlocks (k + 1) rest).flatten)) := by
  simp [srtBlocks, srtBlock, List.append_assoc]

theorem lines_srtBlocks_cons {k : ℕ} {sg : Segment} {rest : List Segment} {na nb : ℕ}
    (ha : sg.start = (na : ℚ) / 1000) (hb : sg.stop = (nb : ℚ) / 1000)
    (htext : '\n' ∉ sg.text) :
    splitOnChar '\n' ((srtBlocks k (sg :: rest)).flatten) =
      natToChars k :: timingLine sg :: sg.text :: [] ::
        splitOnChar '\n' ((srtBlocks (k + 1) rest).flatten) := by
  rw [srtBlocks_flatten_cons, splitOnChar_append natToChars_no_newline,
    splitOnChar_append (timingLine_no_newline ha hb), splitOnChar_append htext,
    splitOnChar_cons_sep]

theorem parseBlocks_writeSrt :
    ∀ (segs : List Segment) (k : ℕ),
      (∀ (i : ℕ) (h : i < segs.length), (segs.get ⟨i, h⟩).id = k + 1 + i) →
      (∀ sg ∈ segs, (∃ n : ℕ, sg.start = (n : ℚ) / 1000) ∧
        (∃ n : ℕ, sg.stop = (n : ℚ) / 1000) ∧ '\n' ∉ sg.text) →
      parseBlocks (splitOnChar '\n' ((srtBlocks (k + 1) segs).flatten)) = some segs := by
  intro segs
  induction segs with
  | nil =>
    intro k _ _
    rfl
  | cons sg rest ih =>
    intro k hid hgood
    obtain ⟨⟨na, hna⟩, ⟨nb, hnb⟩, htext⟩ := hgood sg (List.mem_cons_self sg rest)
    rw [lines_srtBlocks_cons hna hnb htext]
    have hidr : ∀ (i : ℕ) (h : i < rest.length), (rest.get ⟨i, h⟩).id = (k + 1) + 1 + i := by
      intro i h
      have hh := hid (i + 1) (by simpa using Nat.succ_lt_succ h)
      simp only [List.get_cons_succ] at hh
      omega
    have hrec := ih (k + 1) hidr fun q hq => hgood q (List.mem_cons_of_mem sg hq)
    have hid0 : sg.id = k + 1 := by simpa using hid 0 (by simp)
    rw [parseBlocks, if_pos rfl, parseDigits_natToChars, timingLine_natTs hna hnb,
      parseTimingLine_natTs, hrec]
    have hseg : (⟨k + 1, (na : ℚ) / 1000, (nb : ℚ) / 1000, sg.text⟩ : Segment) = sg := by
      cases sg with
      | mk i st sp tx => simp_all
    simp [hseg]

/-- C9 counterexample: `write_srt` writes the 1-based enumerate index and
ignores the segment's own (zero-based) id, so writing a single segment
with id 0 and re-parsing yields id 1 — the original sequence is not
recovered. -/
theorem c9_counterexample_id_not_recovered :
    parseSrt (writeSrt [⟨0, 0, 1, "Hi".toList⟩]) = some [⟨1, 0, 1, "Hi".toList⟩] ∧
    parseSrt (writeSrt [⟨0, 0, 1, "Hi".toList⟩]) ≠ some [⟨0, 0, 1, "Hi".toList⟩] := by
  have hw : writeSrt [(⟨0, 0, 1, "Hi".toList⟩ : Segment)] =
      writeSrt [(⟨1, 0, 1, "Hi".toList⟩ : Segment)] := rfl
  have h1 : parseSrt (writeSrt [(⟨1, 0, 1, "Hi".toList⟩ : Segment)]) =
      some [⟨1, 0, 1, "Hi".toList⟩] := by
    have hmain := parseBlocks_writeSrt [⟨1, 0, 1, "Hi".toList⟩] 0
      (by
        intro i h
        have h0 : i = 0 := by simpa using h
        subst h0
        rfl)
      (by
        intro sg hsg
        rw [List.mem_singleton] at hsg
        subst hsg
        exact ⟨⟨0, by norm_num⟩, ⟨1000, by norm_num⟩, by decide⟩)
    exact hmain
  constructor
  · rw [hw]
    exact h1
  · rw [hw, h1]
    intro hcon
    have hlist := Option.some.inj hcon
    simp at hlist

/-- C9 (amended): for every segment sequence whose ids equal the 1-based
positions, whose start and end times are whole numbers of milliseconds,
and whose texts contain no newline, writing the subtitle file and
re-parsing its numbered blocks recovers the sequence exactly. -/
theorem c9_roundtrip_amended (segs : List Segment)
    (hid : ∀ (i : ℕ) (h : i < segs.length), (segs.get ⟨i, h⟩).id = 1 + i)
    (hgood : ∀ sg ∈ segs, (∃ n : ℕ, sg.start = (n : ℚ) / 1000) ∧
      (∃ n : ℕ, sg.stop = (n : ℚ) / 1000) ∧ '\n' ∉ sg.text) :
    parseSrt (writeSrt segs) = some segs := by
  have hmain := parseBlocks_writeSrt segs 0
    (by
      intro i h
      have := hid i h
      omega)
    hgood
  exact hmain

/-- Witness for the amended C9 at a concrete well-formed segment. -/
theorem c9_roundtrip_amended_witness :
    parseSrt (writeSrt [⟨1, 61.5, 63.25, "Hi there".toList⟩]) =
      some [⟨1, 61.5, 63.25, "Hi there".toList⟩] :=
  c9_roundtrip_amended [⟨1, 61.5, 63.25, "Hi there".toList⟩]
    (by
      intro i h
      have h0 : i = 0 := by simpa using h
      subst h0
      rfl)
    (by
      intro sg hsg
      rw [List.mem_singleton] at hsg
      subst hsg
      exact ⟨⟨61500, by norm_num⟩, ⟨63250, by norm_num⟩, by decide⟩)

/-! ## urlsplit invariants -/

theorem notChar_eq_false_iff {sep c : Char} : notChar sep c = false ↔ c = sep := by
  unfold notChar
  split <;> simp_all

theorem dropWhile_head_false {p : Char → Bool} :
    ∀ {l : List Char} {c : Char} {cs : List Char}, l.dropWhile p = c :: cs → p c = false := by
  intro l
  induction l with
  | nil => intro c cs h; exact List.noConfusion h
  | cons a r ih =>
    intro c cs h
    cases ha : p a
    · rw [List.dropWhile_cons, if_neg (by simp [ha])] at h
      cases h
      exact ha
    · rw [List.dropWhile_cons, if_pos ha] at h
      exact ih h

theorem splitOnce_some_inv {sep : Char} {l a r : List Char}
    (h : splitOnce sep l = (a, some r)) : l = a ++ sep :: r ∧ sep ∉ a := by
  unfold splitOnce at h
  cases hd : l.dropWhile (notChar sep) with
  | nil =>
    rw [hd] at h
    exact absurd (congrArg Prod.snd h) (by simp)
  | cons d rest =>
    rw [hd] at h
    have h1 : l.takeWhile (notChar sep) = a := congrArg Prod.fst h
    have h2 : rest = r := by
      have := congrArg Prod.snd h
      simpa using this
    have hdval : d = sep := notChar_eq_false_iff.mp (dropWhile_head_false hd)
    constructor
    · have hsplit := List.takeWhile_append_dropWhile (p := notChar sep) (l := l)
      rw [hd, h1, hdval, h2] at hsplit
      exact hsplit.symm
    · intro hm
      rw [← h1] at hm
      have := List.mem_takeWhile_imp hm
      rw [notChar_eq_false_iff.mpr rfl] at this
      exact Bool.noConfusion this

theorem splitOnce_none_inv {sep : Char} {l a : List Char}
    (h : splitOnce sep l = (a, none)) : a = l ∧ sep ∉ l := by
  unfold splitOnce at h
  cases hd : l.dropWhile (notChar sep) with
  | nil =>
    rw [hd] at h
    refine ⟨(congrArg Prod.fst h).symm, ?_⟩
    intro hm
    have := List.dropWhile_eq_nil_iff.mp hd sep hm
    rw [notChar_eq_false_iff.mpr rfl] at this
    exact Bool.noConfusion this
  | cons d rest =>
    rw [hd] at h
    exact absurd (congrArg Prod.snd h) (by simp)

theorem splitOnce_fst_spec (sep : Char) (l : List Char) :
    (splitOnce sep l).1 ⊆ l ∧ sep ∉ (splitOnce sep l).1 := by
  cases hso : splitOnce sep l with
  | mk a ro =>
    cases ro with
    | none =>
      obtain ⟨ha, hmem⟩ := splitOnce_none_inv hso
      subst ha
      exact ⟨fun c hc => hc, hmem⟩
    | some r =>
      obtain ⟨hl, hmem⟩ := splitOnce_some_inv hso
      exact ⟨fun c hc => by rw [hl]; simp [hc], hmem⟩

theorem splitScheme_inv (l : List Char) :
    splitScheme l = ([], l) ∨
    (∃ pre rest, l = pre ++ ':' :: rest ∧ ':' ∉ pre ∧ pre ≠ [] ∧
      isAlphaA pre.headI = true ∧ (∀ c ∈ pre, schemeChar c = true) ∧
      splitScheme l = (pre.map asciiLower, rest)) := by
  rcases hsp : splitOnce ':' l with ⟨a, ro⟩
  cases ro with
  | none =>
    left
    simp [splitScheme, hsp]
  | some rest =>
    obtain ⟨hl, hmem⟩ := splitOnce_some_inv hsp
    cases a with
    | nil =>
      left
      simp [splitScheme, hsp]
    | cons c cs =>
      by_cases hc : (isAlphaA c && (c :: cs).all schemeChar) = true
      · right
        obtain ⟨hca, hcall⟩ := Bool.and_eq_true_iff.mp hc
        refine ⟨c :: cs, rest, hl, hmem, by simp, ?_, ?_, ?_⟩
        · simpa using hca
        · intro d hd
          exact List.all_eq_true.mp hcall d hd
        · simp only [splitScheme, hsp]
          rw [if_pos hc]
      · left
        simp only [splitScheme, hsp]
        rw [if_neg hc]

theorem urlsplitTail_spec (scheme netloc rest : List Char) :
    (urlsplitTail scheme netloc rest).scheme = scheme ∧
    (urlsplitTail scheme netloc rest).netloc = netloc ∧
    (urlsplitTail scheme netloc rest).path ⊆ rest ∧
    '#' ∉ (urlsplitTail scheme netloc rest).path ∧
    '?' ∉ (urlsplitTail scheme netloc rest).path := by
  unfold urlsplitTail
  refine ⟨rfl, rfl, ?_, ?_, ?_⟩
  · intro c hc
    have h1 := (splitOnce_fst_spec '?' (splitOnce '#' rest).1).1 hc
    exact (splitOnce_fst_spec '#' rest).1 h1
  · intro hc
    exact (splitOnce_fst_spec '#' rest).2 ((splitOnce_fst_spec '?' (splitOnce '#' rest).1).1 hc)
  · intro hc
    exact (splitOnce_fst_spec '?' (splitOnce '#' rest).1).2 hc

theorem isUpperA_iff {c : Char} : isUpperA c = true ↔ 65 ≤ c.toNat ∧ c.toNat ≤ 90 := by
  simp [isUpperA]

theorem isLowerA_iff {c : Char} : isLowerA c = true ↔ 97 ≤ c.toNat ∧ c.toNat ≤ 122 := by
  simp [isLowerA]

theorem asciiLower_toNat_of_upper {c : Char} (h : isUpperA c = true) :
    (asciiLower c).toNat = c.toNat + 32 := by
  unfold asciiLower
  rw [if_pos h]
  have hb := (isUpperA_iff.mp h).2
  exact toNat_charOfNat (by omega)

theorem asciiLower_of_not_upper {c : Char} (h : isUpperA c = false) : asciiLower c = c := by
  unfold asciiLower
  rw [if_neg (by simp [h])]

theorem isUpperA_asciiLower (c : Char) : isUpperA (asciiLower c) = false := by
  cases hu : isUpperA c
  · rw [asciiLower_of_not_upper hu]
    exact hu
  · obtain ⟨h1, h2⟩ := isUpperA_iff.mp hu
    have h3 := asciiLower_toNat_of_upper hu
    cases hx : isUpperA (asciiLower c)
    · rfl
    · obtain ⟨h4, h5⟩ := isUpperA_iff.mp hx
      omega

theorem asciiLower_asciiLower (c : Char) : asciiLower (asciiLower c) = asciiLower c :=
  asciiLower_of_not_upper (isUpperA_asciiLower c)

theorem isAlphaA_asciiLower {c : Char} (h : isAlphaA c = true) :
    isAlphaA (asciiLower c) = true := by
  cases hu : isUpperA c
  · rw [asciiLower_of_not_upper hu]
    exact h
  · obtain ⟨h1, h2⟩ := isUpperA_iff.mp hu
    have h3 := asciiLower_toNat_of_upper hu
    have hl : isLowerA (asciiLower c) = true := isLowerA_iff.mpr (by omega)
    simp [isAlphaA, hl]

theorem schemeChar_asciiLower {c : Char} (h : schemeChar c = true) :
    schemeChar (asciiLower c) = true := by
  cases hu : isUpperA c
  · rw [asciiLower_of_not_upper hu]
    exact h
  · obtain ⟨h1, h2⟩ := isUpperA_iff.mp hu
    have h3 := asciiLower_toNat_of_upper hu
    have hl : isLowerA (asciiLower c) = true := isLowerA_iff.mpr (by omega)
    simp [schemeChar, isAlnumA, isAlphaA, hl]

theorem map_asciiLower_idem (l : List Char) :
    (l.map asciiLower).map asciiLower = l.map asciiLower := by
  rw [List.map_map]
  exact List.map_congr_left fun c _ => asciiLower_asciiLower c

theorem urlsplitAfterScheme_ok_inv {scheme u1 : List Char} {p : SplitResult}
    (h : urlsplitAfterScheme scheme u1 = .ok p)
    (hu1 : ∀ c ∈ u1, unsafeUrlChar c = false) :
    p.scheme = scheme ∧
    (∀ c ∈ p.netloc, netlocEnd c = false ∧ unsafeUrlChar c = false) ∧
    (∀ c ∈ p.path, c ≠ '#' ∧ c ≠ '?' ∧ unsafeUrlChar c = false) ∧
    ¬ (('[' ∈ p.netloc ∧ ']' ∉ p.netloc) ∨ (']' ∈ p.netloc ∧ '[' ∉ p.netloc)) := by
  unfold urlsplitAfterScheme at h
  by_cases hs : u1.take 2 = "//".toList
  · rw [if_pos hs] at h
    by_cases hb : ('[' ∈ (splitNetloc (u1.drop 2)).1 ∧ ']' ∉ (splitNetloc (u1.drop 2)).1) ∨
        (']' ∈ (splitNetloc (u1.drop 2)).1 ∧ '[' ∉ (splitNetloc (u1.drop 2)).1)
    · rw [if_pos hb] at h
      exact absurd h (by simp)
    · rw [if_neg hb] at h
      have hp := Except.ok.inj h
      obtain ⟨hsch, hnl, hpath, hfr, hq⟩ :=
        urlsplitTail_spec scheme (splitNetloc (u1.drop 2)).1 (splitNetloc (u1.drop 2)).2
      subst hp
      refine ⟨hsch, ?_, ?_, ?_⟩
      · intro c hc
        rw [hnl] at hc
        have hmem := (List.takeWhile_prefix (p := notNetlocEnd)).subset hc
        have hend := List.mem_takeWhile_imp hc
        refine ⟨by simpa [notNetlocEnd] using hend, ?_⟩
        exact hu1 c (List.drop_subset 2 u1 hmem)
      · intro c hc
        refine ⟨fun hcc => hfr (hcc ▸ hc), fun hcc => hq (hcc ▸ hc), ?_⟩
        have h1 := hpath hc
        have h2 := (List.dropWhile_suffix (p := notNetlocEnd)).subset h1
        exact hu1 c (List.drop_subset 2 u1 h2)
      · rw [hnl]
        exact hb
  · rw [if_neg hs] at h
    have hp := Except.ok.inj h
    obtain ⟨hsch, hnl, hpath, hfr, hq⟩ := urlsplitTail_spec scheme [] u1
    subst hp
    refine ⟨hsch, ?_, ?_, ?_⟩
    · intro c hc
      rw [hnl] at hc
      exact absurd hc (List.not_mem_nil c)
    · intro c hc
      exact ⟨fun hcc => hfr (hcc ▸ hc), fun hcc => hq (hcc ▸ hc), hu1 c (hpath hc)⟩
    · rw [hnl]
      simp

theorem urlsplit_ok_inv {u : List Char} {p : SplitResult} (h : urlsplit u = .ok p) :
    (p.scheme = [] ∨ (p.scheme ≠ [] ∧ isAlphaA p.scheme.headI = true ∧
      (∀ d ∈ p.scheme, schemeChar d = true) ∧ p.scheme.map asciiLower = p.scheme)) ∧
    (∀ c ∈ p.netloc, netlocEnd c = false ∧ unsafeUrlChar c = false) ∧
    (∀ c ∈ p.path, c ≠ '#' ∧ c ≠ '?' ∧ unsafeUrlChar c = false) ∧
    ¬ (('[' ∈ p.netloc ∧ ']' ∉ p.netloc) ∨ (']' ∈ p.netloc ∧ '[' ∉ p.netloc)) := by
  have hu0 : ∀ c ∈ u.filter keepUrlChar, unsafeUrlChar c = false := by
    intro c hc
    have := (List.mem_filter.mp hc).2
    simpa [keepUrlChar] using this
  unfold urlsplit at h
  rcases splitScheme_inv (u.filter keepUrlChar) with hsp |
    ⟨pre, rest, hl, hpm, hpne, hph, hpall, hsp⟩
  · rw [hsp] at h
    obtain ⟨hsch, h2, h3, h4⟩ := urlsplitAfterScheme_ok_inv h hu0
    exact ⟨Or.inl hsch, h2, h3, h4⟩
  · rw [hsp] at h
    have hrest : ∀ c ∈ rest, unsafeUrlChar c = false := by
      intro c hc
      exact hu0 c (by rw [hl]; simp [hc])
    obtain ⟨hsch, h2, h3, h4⟩ := urlsplitAfterScheme_ok_inv h hrest
    refine ⟨Or.inr ?_, h2, h3, h4⟩
    obtain ⟨c0, cs0, rfl⟩ := List.exists_cons_of_ne_nil hpne
    rw [hsch]
    refine ⟨by simp, ?_, ?_, map_asciiLower_idem _⟩
    · simpa using isAlphaA_asciiLower (by simpa using hph)
    · intro d hd
      rw [List.mem_map] at hd
      obtain ⟨e, he, rfl⟩ := hd
      exact schemeChar_asciiLower (hpall e he)

theorem locateReelId_mem {ps : List (List Char)} {rid : List Char}
    (h : locateReelId ps = some rid) : rid ∈ ps := by
  unfold locateReelId at h
  by_cases h1 : "reel".toList ∈ ps
  · rw [if_pos h1] at h
    exact List.getElem?_mem h
  · rw [if_neg h1] at h
    by_cases h2 : "reels".toList ∈ ps
    · rw [if_pos h2] at h
      exact List.getElem?_mem h
    · rw [if_neg h2] at h
      exact Option.noConfusion h

theorem clean_ok_shape {u r : List Char} (h : cleanInstagramReelUrl u = .ok r) :
    ∃ s hst x : List Char,
      r = s ++ "://".toList ++ hst ++ "/reel/".toList ++ x ∧
      (s = "https".toList ∨ (s ≠ [] ∧ isAlphaA s.headI = true ∧
        (∀ d ∈ s, schemeChar d = true) ∧ s.map asciiLower = s)) ∧
      s ≠ [] ∧
      (hst = "www.instagram.com".toList ∨
        (hst ≠ [] ∧ (∀ c ∈ hst, netlocEnd c = false ∧ unsafeUrlChar c = false) ∧
          ¬ (('[' ∈ hst ∧ ']' ∉ hst) ∨ (']' ∈ hst ∧ '[' ∉ hst)))) ∧
      hst ≠ [] ∧
      x ≠ [] ∧ (∀ c ∈ x, c ≠ '/' ∧ c ≠ '#' ∧ c ≠ '?' ∧ unsafeUrlChar c = false) := by
  unfold cleanInstagramReelUrl at h
  cases hus : urlsplit u with
  | error e =>
    rw [hus] at h
    exact absurd h (by simp)
  | ok parsed =>
    simp only [hus] at h
    cases hloc : locateReelId (pathParts parsed.path) with
    | none =>
      simp only [hloc] at h
      exact absurd h (by simp)
    | some rid =>
      simp only [hloc] at h
      obtain ⟨hscheme, hnl, hpath, hbr⟩ := urlsplit_ok_inv hus
      have hmem : rid ∈ pathParts parsed.path := locateReelId_mem hloc
      obtain ⟨hmem2, hridne⟩ := List.mem_filter.mp hmem
      have hridne' : rid ≠ [] := by simpa using hridne
      have hnoslash : '/' ∉ rid := splitOnChar_sep_not_mem hmem2
      have hsub : ∀ c ∈ rid, c ∈ parsed.path := splitOnChar_subset hmem2
      have hsne : (if parsed.scheme = [] then "https".toList else parsed.scheme) ≠ [] := by
        by_cases hz : parsed.scheme = [] <;> simp [hz]
      have hhne : (if parsed.netloc = [] then "www.instagram.com".toList
          else parsed.netloc) ≠ [] := by
        by_cases hz : parsed.netloc = [] <;> simp [hz]
      refine ⟨(if parsed.scheme = [] then "https".toList else parsed.scheme),
        (if parsed.netloc = [] then "www.instagram.com".toList else parsed.netloc), rid,
        ?_, ?_, hsne, ?_, hhne, hridne', ?_⟩
      · have hr := Except.ok.inj h
        rw [← hr, urlunsplit_reel _ _ _ hsne hhne]
      · by_cases hz : parsed.scheme = []
        · rw [if_pos hz]
          exact Or.inl rfl
        · rw [if_neg hz]
          rcases hscheme with hzz | hv
          · exact absurd hzz hz
          · exact Or.inr hv
      · by_cases hz : parsed.netloc = []
        · rw [if_pos hz]
          exact Or.inl rfl
        · rw [if_neg hz]
          refine Or.inr ⟨hz, hnl, hbr⟩
      · intro c hc
        obtain ⟨hc1, hc2, hc3⟩ := hpath c (hsub c hc)
        exact ⟨fun hcc => hnoslash (hcc ▸ hc), hc1, hc2, hc3⟩

theorem schemeChar_not_unsafe {c : Char} (h : schemeChar c = true) :
    unsafeUrlChar c = false := by
  cases hc : unsafeUrlChar c
  · rfl
  · exfalso
    have hcc : (c = '\t' ∨ c = '\r') ∨ c = '\n' := by simpa [unsafeUrlChar] using hc
    rcases hcc with (rfl | rfl) | rfl <;> exact absurd h (by decide)

theorem splitScheme_of_valid {s rest : List Char} (hne : s ≠ [])
    (hh : isAlphaA s.headI = true) (hall : ∀ c ∈ s, schemeChar c = true)
    (hlow : s.map asciiLower = s) :
    splitScheme (s ++ ':' :: rest) = (s, rest) := by
  have hcolon : ':' ∉ s := fun hm => absurd (hall ':' hm) (by decide)
  have hso := splitOnce_append (r := rest) hcolon
  obtain ⟨c0, cs0, rfl⟩ := List.exists_cons_of_ne_nil hne
  have hcond : (isAlphaA c0 && (c0 :: cs0).all schemeChar) = true := by
    rw [Bool.and_eq_true_iff]
    exact ⟨by simpa using hh, List.all_eq_true.mpr hall⟩
  simp only [splitScheme, hso]
  rw [if_pos hcond, hlow]

theorem urlsplit_canonical {s hst x : List Char}
    (hs : s ≠ [] ∧ isAlphaA s.headI = true ∧ (∀ d ∈ s, schemeChar d = true) ∧
      s.map asciiLower = s)
    (hh : hst ≠ [] ∧ (∀ c ∈ hst, netlocEnd c = false ∧ unsafeUrlChar c = false) ∧
      ¬ (('[' ∈ hst ∧ ']' ∉ hst) ∨ (']' ∈ hst ∧ '[' ∉ hst)))
    (hx : ∀ c ∈ x, c ≠ '/' ∧ c ≠ '#' ∧ c ≠ '?' ∧ unsafeUrlChar c = false) :
    urlsplit (s ++ "://".toList ++ hst ++ "/reel/".toList ++ x) =
      .ok ⟨s, hst, "/reel/".toList ++ x, [], []⟩ := by
  obtain ⟨hsne, hsh, hsall, hslow⟩ := hs
  obtain ⟨hhne, hhchar, hhbr⟩ := hh
  have hkeep : ∀ c ∈ s ++ "://".toList ++ hst ++ "/reel/".toList ++ x,
      keepUrlChar c = true := by
    intro c hc
    have hunsafe : unsafeUrlChar c = false := by
      simp only [List.mem_append] at hc
      rcases hc with ((((hc | hc) | hc) | hc) | hc)
      · exact schemeChar_not_unsafe (hsall c hc)
      · rcases (by simpa using hc : c = ':' ∨ c = '/') with rfl | rfl <;> decide
      · exact (hhchar c hc).2
      · rcases (by simpa using hc :
            c = '/' ∨ c = 'r' ∨ c = 'e' ∨ c = 'l' ∨ c = '/') with
          rfl | rfl | rfl | rfl | rfl <;> decide
      · exact (hx c hc).2.2.2
    simp [keepUrlChar, hunsafe]
  have hfilter : (s ++ "://".toList ++ hst ++ "/reel/".toList ++ x).filter keepUrlChar =
      s ++ "://".toList ++ hst ++ "/reel/".toList ++ x := List.filter_eq_self.mpr hkeep
  have hshape : s ++ "://".toList ++ hst ++ "/reel/".toList ++ x =
      s ++ ':' :: ('/' :: '/' :: (hst ++ '/' :: ("reel/".toList ++ x))) := by
    simp [List.append_assoc]
  have htw : (hst ++ '/' :: ("reel/".toList ++ x)).takeWhile notNetlocEnd = hst :=
    takeWhile_append_of_all (fun c hc => by simp [notNetlocEnd, (hhchar c hc).1]) (by decide)
  have hdw : (hst ++ '/' :: ("reel/".toList ++ x)).dropWhile notNetlocEnd =
      '/' :: ("reel/".toList ++ x) :=
    dropWhile_append_of_all (fun c hc => by simp [notNetlocEnd, (hhchar c hc).1]) (by decide)
  have hnohash : '#' ∉ '/' :: ("reel/".toList ++ x) := by
    intro hc
    rcases List.mem_cons.mp hc with h | h
    · exact absurd h (by decide)
    rcases List.mem_append.mp h with h | h
    · exact absurd h (by decide)
    · exact (hx '#' h).2.1 rfl
  have hnoq : '?' ∉ '/' :: ("reel/".toList ++ x) := by
    intro hc
    rcases List.mem_cons.mp hc with h | h
    · exact absurd h (by decide)
    rcases List.mem_append.mp h with h | h
    · exact absurd h (by decide)
    · exact (hx '?' h).2.2.1 rfl
  have htail : urlsplitTail s hst ('/' :: ("reel/".toList ++ x)) =
      ⟨s, hst, '/' :: ("reel/".toList ++ x), [], []⟩ := by
    simp only [urlsplitTail, splitOnce_of_not_mem hnohash, splitOnce_of_not_mem hnoq,
      Option.getD_none]
  unfold urlsplit
  rw [hfilter, hshape, splitScheme_of_valid hsne hsh hsall hslow]
  show urlsplitAfterScheme s ('/' :: '/' :: (hst ++ '/' :: ("reel/".toList ++ x))) = _
  have hcond : ('/' :: '/' :: (hst ++ '/' :: ("reel/".toList ++ x))).take 2 =
      "//".toList := rfl
  unfold urlsplitAfterScheme
  rw [if_pos hcond]
  simp only [List.drop_succ_cons, List.drop_zero, splitNetloc, htw, hdw]
  rw [if_neg hhbr, htail]
  rfl

/-- C4: `normalize` is idempotent — re-normalizing any URL it accepts
returns the same canonical URL unchanged. -/
theorem c4_normalize_idempotent (u r : List Char)
    (h : cleanInstagramReelUrl u = .ok r) : cleanInstagramReelUrl r = .ok r := by
  obtain ⟨s, hst, x, hr, hs, hsne, hh, hhne, hxne, hx⟩ := clean_ok_shape h
  have hs' : s ≠ [] ∧ isAlphaA s.headI = true ∧ (∀ d ∈ s, schemeChar d = true) ∧
      s.map asciiLower = s := by
    rcases hs with rfl | hv
    · exact ⟨by decide, by decide, by decide, by decide⟩
    · exact hv
  have hh' : hst ≠ [] ∧ (∀ c ∈ hst, netlocEnd c = false ∧ unsafeUrlChar c = false) ∧
      ¬ (('[' ∈ hst ∧ ']' ∉ hst) ∨ (']' ∈ hst ∧ '[' ∉ hst)) := by
    rcases hh with rfl | hv
    · exact ⟨by decide, by decide, by decide⟩
    · exact hv
  have hus := urlsplit_canonical hs' hh' hx
  have hnoslash : '/' ∉ x := fun hm => (hx '/' hm).1 rfl
  have hparts : pathParts ("/reel/".toList ++ x) = ["reel".toList, x] := by
    have hstep : "/reel/".toList ++ x = '/' :: ("reel".toList ++ '/' :: x) := by
      simp
    unfold pathParts
    rw [hstep, splitOnChar_cons_sep, splitOnChar_append (by decide),
      splitOnChar_of_not_mem hnoslash]
    simp [hxne]
  have hloc : locateReelId ["reel".toList, x] = some x := by
    have hidx : List.indexOf "reel".toList ["reel".toList, x] = 0 := rfl
    unfold locateReelId
    rw [if_pos (by simp), hidx]
    rfl
  unfold cleanInstagramReelUrl
  rw [hr]
  simp only [hus, hparts, hloc]
  rw [if_neg hs'.1, if_neg hh'.1, urlunsplit_reel _ _ _ hs'.1 hh'.1]

/-- Witness for C4: the spec's example URL is accepted, and re-normalizing
its canonical form returns it unchanged. -/
theorem c4_normalize_idempotent_witness :
    cleanInstagramReelUrl "https://www.instagram.com/reel/ABC123/".toList =
      .ok "https://www.instagram.com/reel/ABC123".toList ∧
    cleanInstagramReelUrl "https://www.instagram.com/reel/ABC123".toList =
      .ok "https://www.instagram.com/reel/ABC123".toList := by
  constructor
  · decide
  · exact c4_normalize_idempotent "https://www.instagram.com/reel/ABC123/".toList
      "https://www.instagram.com/reel/ABC123".toList (by decide)

/-! ## The accepted pattern of INSTAGRAM_RE -/

theorem tailOk_cases {t : List Char} (h : tailOk t = true) (hnl : '\n' ∉ t) :
    t = [] ∨ t = ['/'] := by
  have hc : t = [] ∨ t = ['\n'] ∨ t = ['/'] ∨ t = ['/', '\n'] := by
    simpa [tailOk, or_assoc] using h
  rcases hc with hc | hc | hc | hc
  · exact Or.inl hc
  · exact absurd (hc ▸ List.mem_singleton_self '\n') (hc ▸ hnl)
  · exact Or.inr hc
  · exfalso
    apply hnl
    rw [hc]
    simp

theorem ident_tail_decomp {l7 : List Char} (hnl : '\n' ∉ l7)
    (h : (!(l7.takeWhile isIdentChar).isEmpty && tailOk (l7.dropWhile isIdentChar)) = true) :
    ∃ (ident : List Char) (slash : Bool), ident ≠ [] ∧
      (∀ c ∈ ident, isIdentChar c = true) ∧
      l7 = ident ++ (if slash then ['/'] else []) := by
  obtain ⟨h1, h2⟩ := Bool.and_eq_true_iff.mp h
  have hne : l7.takeWhile isIdentChar ≠ [] := by simpa using h1
  have hall : ∀ c ∈ l7.takeWhile isIdentChar, isIdentChar c = true :=
    fun c hc => List.mem_takeWhile_imp hc
  have hsplit := (List.takeWhile_append_dropWhile (p := isIdentChar) (l := l7)).symm
  have hnld : '\n' ∉ l7.dropWhile isIdentChar :=
    fun hm => hnl ((List.dropWhile_suffix isIdentChar).subset hm)
  rcases tailOk_cases h2 hnld with hd | hd
  · refine ⟨l7.takeWhile isIdentChar, false, hne, hall, ?_⟩
    conv_lhs => rw [hsplit, hd]
    simp
  · refine ⟨l7.takeWhile isIdentChar, true, hne, hall, ?_⟩
    conv_lhs => rw [hsplit, hd]
    simp

theorem dropOpt_of_none {lit l : List Char} (h : dropLit lit l = none) :
    dropOpt lit l = l := by
  unfold dropOpt; rw [h]; rfl

theorem dropOpt_of_some {lit l r : List Char} (h : dropLit lit l = some r) :
    dropOpt lit l = r := by
  unfold dropOpt; rw [h]; rfl

theorem matchLowered_eq_none {m : List Char}
    (h : dropLit "http".toList m = none) : matchLowered m = false := by
  unfold matchLowered; rw [h]

theorem matchLowered_eq_some {m l1 : List Char}
    (h : dropLit "http".toList m = some l1) :
    matchLowered m = matchAfterHttp l1 := by
  unfold matchLowered; rw [h]

theorem matchAfterHttp_eq_none {l1 r : List Char}
    (hdo : dropOpt "s".toList l1 = r) (h : dropLit "://".toList r = none) :
    matchAfterHttp l1 = false := by
  unfold matchAfterHttp; rw [hdo, h]

theorem matchAfterHttp_eq_some {l1 r l3 : List Char}
    (hdo : dropOpt "s".toList l1 = r) (h : dropLit "://".toList r = some l3) :
    matchAfterHttp l1 = matchAfterAuthority l3 := by
  unfold matchAfterHttp; rw [hdo, h]

theorem matchAfterAuthority_eq_none {l3 r : List Char}
    (hdo : dropOpt "www.".toList l3 = r)
    (h : dropLit "instagram.com/reel".toList r = none) :
    matchAfterAuthority l3 = false := by
  unfold matchAfterAuthority; rw [hdo, h]

theorem matchAfterAuthority_eq_some {l3 r l5 : List Char}
    (hdo : dropOpt "www.".toList l3 = r)
    (h : dropLit "instagram.com/reel".toList r = some l5) :
    matchAfterAuthority l3 = matchAfterReelSeg l5 := by
  unfold matchAfterAuthority; rw [hdo, h]

theorem matchAfterReelSeg_eq_none {l5 r : List Char}
    (hdo : dropOpt "s".toList l5 = r) (h : dropLit "/".toList r = none) :
    matchAfterReelSeg l5 = false := by
  unfold matchAfterReelSeg; rw [hdo, h]

theorem matchAfterReelSeg_eq_some {l5 r l7 : List Char}
    (hdo : dropOpt "s".toList l5 = r) (h : dropLit "/".toList r = some l7) :
    matchAfterReelSeg l5 = matchIdent l7 := by
  unfold matchAfterReelSeg; rw [hdo, h]

theorem matchLowered_decomp_mp {m : List Char} (hnl : '\n' ∉ m)
    (hm : matchLowered m = true) :
    ∃ (ssl www plural slash : Bool) (ident : List Char),
      ident ≠ [] ∧ (∀ c ∈ ident, isIdentChar c = true) ∧
      m = (if ssl then "https".toList else "http".toList) ++ "://".toList ++
        (if www then "www.".toList else []) ++ "instagram.com".toList ++
        (if plural then "/reels/".toList else "/reel/".toList) ++ ident ++
        (if slash then ['/'] else []) := by
  cases h1 : dropLit "http".toList m with
  | none => rw [matchLowered_eq_none h1] at hm; simp at hm
  | some l1 =>
    rw [matchLowered_eq_some h1] at hm
    have he1 : m = "http".toList ++ l1 := dropLit_eq_some.mp h1
    cases h2 : dropLit "s".toList l1 with
    | none =>
      have hdo2 := dropOpt_of_none h2
      cases h3 : dropLit "://".toList l1 with
      | none => rw [matchAfterHttp_eq_none hdo2 h3] at hm; simp at hm
      | some l3 =>
        rw [matchAfterHttp_eq_some hdo2 h3] at hm
        have he3 : l1 = "://".toList ++ l3 := dropLit_eq_some.mp h3
        cases h4 : dropLit "www.".toList l3 with
        | none =>
          have hdo4 := dropOpt_of_none h4
          cases h5 : dropLit "instagram.com/reel".toList l3 with
          | none => rw [matchAfterAuthority_eq_none hdo4 h5] at hm; simp at hm
          | some l5 =>
            rw [matchAfterAuthority_eq_some hdo4 h5] at hm
            have he5 : l3 = "instagram.com/reel".toList ++ l5 := dropLit_eq_some.mp h5
            cases h6 : dropLit "s".toList l5 with
            | none =>
              have hdo6 := dropOpt_of_none h6
              cases h7 : dropLit "/".toList l5 with
              | none => rw [matchAfterReelSeg_eq_none hdo6 h7] at hm; simp at hm
              | some l7 =>
                rw [matchAfterReelSeg_eq_some hdo6 h7] at hm
                unfold matchIdent at hm
                have he7 : l5 = "/".toList ++ l7 := dropLit_eq_some.mp h7
                have hnl7 : '\n' ∉ l7 := fun hcm => hnl (by
                  rw [he1, he3, he5, he7]; simp [hcm])
                obtain ⟨ident, slash, hi1, hi2, hi3⟩ := ident_tail_decomp hnl7 hm
                refine ⟨false, false, false, slash, ident, hi1, hi2, ?_⟩
                rw [he1, he3, he5, he7, hi3]
                simp [List.append_assoc]
            | some l6 =>
              have hdo6 := dropOpt_of_some h6
              have he6 : l5 = "s".toList ++ l6 := dropLit_eq_some.mp h6
              cases h7 : dropLit "/".toList l6 with
              | none => rw [matchAfterReelSeg_eq_none hdo6 h7] at hm; simp at hm
              | some l7 =>
                rw [matchAfterReelSeg_eq_some hdo6 h7] at hm
                unfold matchIdent at hm
                have he7 : l6 = "/".toList ++ l7 := dropLit_eq_some.mp h7
                have hnl7 : '\n' ∉ l7 := fun hcm => hnl (by
                  rw [he1, he3, he5, he6, he7]; simp [hcm])
                obtain ⟨ident, slash, hi1, hi2, hi3⟩ := ident_tail_decomp hnl7 hm
                refine ⟨false, false, true, slash, ident, hi1, hi2, ?_⟩
                rw [he1, he3, he5, he6, he7, hi3]
                simp [List.append_assoc]
        | some l4 =>
          have hdo4 := dropOpt_of_some h4
          have he4 : l3 = "www.".toList ++ l4 := dropLit_eq_some.mp h4
          cases h5 : dropLit "instagram.com/reel".toList l4 with
          | none => rw [matchAfterAuthority_eq_none hdo4 h5] at hm; simp at hm
          | some l5 =>
            rw [matchAfterAuthority_eq_some hdo4 h5] at hm
            have he5 : l4 = "instagram.com/reel".toList ++ l5 := dropLit_eq_some.mp h5
            cases h6 : dropLit "s".toList l5 with
            | none =>
              have hdo6 := dropOpt_of_none h6
              cases h7 : dropLit "/".toList l5 with
              | none => rw [matchAfterReelSeg_eq_none hdo6 h7] at hm; simp at hm
              | some l7 =>
                rw [matchAfterReelSeg_eq_some hdo6 h7] at hm
                unfold matchIdent at hm
                have he7 : l5 = "/".toList ++ l7 := dropLit_eq_some.mp h7
                have hnl7 : '\n' ∉ l7 := fun hcm => hnl (by
                  rw [he1, he3, he4, he5, he7]; simp [hcm])
                obtain ⟨ident, slash, hi1, hi2, hi3⟩ := ident_tail_decomp hnl7 hm
                refine ⟨false, true, false, slash, ident, hi1, hi2, ?_⟩
                rw [he1, he3, he4, he5, he7, hi3]
                simp [List.append_assoc]
            | some l6 =>
              have hdo6 := dropOpt_of_some h6
              have he6 : l5 = "s".toList ++ l6 := dropLit_eq_some.mp h6
              cases h7 : dropLit "/".toList l6 with
              | none => rw [matchAfterReelSeg_eq_none hdo6 h7] at hm; simp at hm
              | some l7 =>
                rw [matchAfterReelSeg_eq_some hdo6 h7] at hm
                unfold matchIdent at hm
                have he7 : l6 = "/".toList ++ l7 := dropLit_eq_some.mp h7
                have hnl7 : '\n' ∉ l7 := fun hcm => hnl (by
                  rw [he1, he3, he4, he5, he6, he7]; simp [hcm])
                obtain ⟨ident, slash, hi1, hi2, hi3⟩ := ident_tail_decomp hnl7 hm
                refine ⟨false, true, true, slash, ident, hi1, hi2, ?_⟩
                rw [he1, he3, he4, he5, he6, he7, hi3]
                simp [List.append_assoc]
    | some l1s =>
      have hdo2 := dropOpt_of_some h2
      have he2 : l1 = "s".toList ++ l1s := dropLit_eq_some.mp h2
      cases h3 : dropLit "://".toList l1s with
      | none => rw [matchAfterHttp_eq_none hdo2 h3] at hm; simp at hm
      | some l3 =>
        rw [matchAfterHttp_eq_some hdo2 h3] at hm
        have he3 : l1s = "://".toList ++ l3 := dropLit_eq_some.mp h3
        cases h4 : dropLit "www.".toList l3 with
        | none =>
          have hdo4 := dropOpt_of_none h4
          cases h5 : dropLit "instagram.com/reel".toList l3 with
          | none => rw [matchAfterAuthority_eq_none hdo4 h5] at hm; simp at hm
          | some l5 =>
            rw [matchAfterAuthority_eq_some hdo4 h5] at hm
            have he5 : l3 = "instagram.com/reel".toList ++ l5 := dropLit_eq_some.mp h5
            cases h6 : dropLit "s".toList l5 with
            | none =>
              have hdo6 := dropOpt_of_none h6
              cases h7 : dropLit "/".toList l5 with
              | none => rw [matchAfterReelSeg_eq_none hdo6 h7] at hm; simp at hm
              | some l7 =>
                rw [matchAfterReelSeg_eq_some hdo6 h7] at hm
                unfold matchIdent at hm
                have he7 : l5 = "/".toList ++ l7 := dropLit_eq_some.mp h7
                have hnl7 : '\n' ∉ l7 := fun hcm => hnl (by
                  rw [he1, he2, he3, he5, he7]; simp [hcm])
                obtain ⟨ident, slash, hi1, hi2, hi3⟩ := ident_tail_decomp hnl7 hm
                refine ⟨true, false, false, slash, ident, hi1, hi2, ?_⟩
                rw [he1, he2, he3, he5, he7, hi3]
                simp [List.append_assoc]
            | some l6 =>
              have hdo6 := dropOpt_of_some h6
              have he6 : l5 = "s".toList ++ l6 := dropLit_eq_some.mp h6
              cases h7 : dropLit "/".toList l6 with
              | none => rw [matchAfterReelSeg_eq_none hdo6 h7] at hm; simp at hm
              | some l7 =>
                rw [matchAfterReelSeg_eq_some hdo6 h7] at hm
                unfold matchIdent at hm
                have he7 : l6 = "/".toList ++ l7 := dropLit_eq_some.mp h7
                have hnl7 : '\n' ∉ l7 := fun hcm => hnl (by
                  rw [he1, he2, he3, he5, he6, he7]; simp [hcm])
                obtain ⟨ident, slash, hi1, hi2, hi3⟩ := ident_tail_decomp hnl7 hm
                refine ⟨true, false, true, slash, ident, hi1, hi2, ?_⟩
                rw [he1, he2, he3, he5, he6, he7, hi3]
                simp [List.append_assoc]
        | some l4 =>
          have hdo4 := dropOpt_of_some h4
          have he4 : l3 = "www.".toList ++ l4 := dropLit_eq_some.mp h4
          cases h5 : dropLit "instagram.com/reel".toList l4 with
          | none => rw [matchAfterAuthority_eq_none hdo4 h5] at hm; simp at hm
          | some l5 =>
            rw [matchAfterAuthority_eq_some hdo4 h5] at hm
            have he5 : l4 = "instagram.com/reel".toList ++ l5 := dropLit_eq_some.mp h5
            cases h6 : dropLit "s".toList l5 with
            | none =>
              have hdo6 := dropOpt_of_none h6
              cases h7 : dropLit "/".toList l5 with
              | none => rw [matchAfterReelSeg_eq_none hdo6 h7] at hm; simp at hm
              | some l7 =>
                rw [matchAfterReelSeg_eq_some hdo6 h7] at hm
                unfold matchIdent at hm
                have he7 : l5 = "/".toList ++ l7 := dropLit_eq_some.mp h7
                have hnl7 : '\n' ∉ l7 := fun hcm => hnl (by
                  rw [he1, he2, he3, he4, he5, he7]; simp [hcm])
                obtain ⟨ident, slash, hi1, hi2, hi3⟩ := ident_tail_decomp hnl7 hm
                refine ⟨true, true, false, slash, ident, hi1, hi2, ?_⟩
                rw [he1, he2, he3, he4, he5, he7, hi3]
                simp [List.append_assoc]
            | some l6 =>
              have hdo6 := dropOpt_of_some h6
              have he6 : l5 = "s".toList ++ l6 := dropLit_eq_some.mp h6
              cases h7 : dropLit "/".toList l6 with
              | none => rw [matchAfterReelSeg_eq_none hdo6 h7] at hm; simp at hm
              | some l7 =>
                rw [matchAfterReelSeg_eq_some hdo6 h7] at hm
                unfold matchIdent at hm
                have he7 : l6 = "/".toList ++ l7 := dropLit_eq_some.mp h7
                have hnl7 : '\n' ∉ l7 := fun hcm => hnl (by
                  rw [he1, he2, he3, he4, he5, he6, he7]; simp [hcm])
                obtain ⟨ident, slash, hi1, hi2, hi3⟩ := ident_tail_decomp hnl7 hm
                refine ⟨true, true, true, slash, ident, hi1, hi2, ?_⟩
                rw [he1, he2, he3, he4, he5, he6, he7, hi3]
                simp [List.append_assoc]

theorem not_isEmpty_of_ne_nil {l : List Char} (h : l ≠ []) : (!l.isEmpty) = true := by
  cases l with
  | nil => exact absurd rfl h
  | cons a as => rfl

theorem matchIdent_of_ident (slash : Bool) {ident : List Char} (hne : ident ≠ [])
    (hall : ∀ c ∈ ident, isIdentChar c = true) :
    matchIdent (ident ++ (if slash then ['/'] else [])) = true := by
  cases slash with
  | false =>
    rw [if_neg (by simp : ¬ ((false : Bool) = true)), List.append_nil]
    unfold matchIdent
    rw [takeWhile_eq_self_of_all hall, dropWhile_eq_nil_of_all hall,
      not_isEmpty_of_ne_nil hne]
    decide
  | true =>
    rw [if_pos rfl]
    unfold matchIdent
    rw [takeWhile_append_of_all hall (by decide),
      dropWhile_append_of_all hall (by decide), not_isEmpty_of_ne_nil hne]
    decide

theorem matchLowered_decomp_mpr {ssl www plural slash : Bool} {ident : List Char}
    (hne : ident ≠ []) (hall : ∀ c ∈ ident, isIdentChar c = true) :
    matchLowered ((if ssl then "https".toList else "http".toList) ++ "://".toList ++
      (if www then "www.".toList else []) ++ "instagram.com".toList ++
      (if plural then "/reels/".toList else "/reel/".toList) ++ ident ++
      (if slash then ['/'] else [])) = true := by
  have hmi := matchIdent_of_ident slash hne hall
  cases ssl <;> cases www <;> cases plural <;> exact hmi

theorem asciiLower_eq_newline {c : Char} (h : asciiLower c = '\n') : c = '\n' := by
  cases hu : isUpperA c
  · rw [asciiLower_of_not_upper hu] at h
    exact h
  · exfalso
    obtain ⟨h1, h2⟩ := isUpperA_iff.mp hu
    have h3 := asciiLower_toNat_of_upper hu
    rw [h] at h3
    have h4 : ('\n').toNat = 10 := rfl
    omega

theorem no_newline_map_asciiLower {l : List Char} (h : '\n' ∉ l) :
    '\n' ∉ l.map asciiLower := by
  intro hm
  obtain ⟨c, hc, he⟩ := List.mem_map.mp hm
  rw [asciiLower_eq_newline he] at hc
  exact h hc

theorem clean_ok_no_newline {u r : List Char} (h : cleanInstagramReelUrl u = .ok r) :
    '\n' ∉ r := by
  obtain ⟨s, hst, x, hr, hs, _, hh, _, _, hx⟩ := clean_ok_shape h
  intro hm
  rw [hr] at hm
  simp only [List.append_assoc, List.mem_append] at hm
  rcases hm with hm | hm | hm | hm | hm
  · rcases hs with rfl | hv
    · exact absurd hm (by decide)
    · exact absurd (hv.2.2.1 '\n' hm) (by decide)
  · exact absurd hm (by decide)
  · rcases hh with rfl | hv
    · exact absurd hm (by decide)
    · exact absurd (hv.2.1 '\n' hm).2 (by decide)
  · exact absurd hm (by decide)
  · exact absurd (hx '\n' hm).2.2.2 (by decide)

theorem instagramMatch_iff {l : List Char} (hnl : '\n' ∉ l) :
    instagramMatch l = true ↔ acceptedPattern l := by
  constructor
  · intro hm
    exact matchLowered_decomp_mp (no_newline_map_asciiLower hnl) hm
  · rintro ⟨ssl, www, plural, slash, ident, h1, h2, h3⟩
    unfold instagramMatch
    rw [h3]
    exact matchLowered_decomp_mpr h1 h2

/-- C5: after the normalizer rebuilds the canonical URL, `download_audio`
re-validates the rebuilt form against `INSTAGRAM_RE`: the rebuilt URL is
accepted exactly when it matches the accepted pattern (scheme `http` or
`https`, optional `www.` prefix, host `instagram.com`, path `/reel/` or
`/reels/` followed by one identifier segment of alphanumerics, `_` and `-`,
optional trailing slash, all case-insensitively), and when it does not
match, the call fails with the invalid-URL error message. -/
theorem c5_revalidates_rebuilt_url (u c : List Char)
    (h : cleanInstagramReelUrl u = .ok c) :
    (downloadAudioValidate u = .ok c ↔ acceptedPattern c) ∧
    (¬ acceptedPattern c →
      downloadAudioValidate u =
        .error "This does not look like a valid Instagram Reel URL.".toList) := by
  have hiff := instagramMatch_iff (clean_ok_no_newline h)
  unfold downloadAudioValidate
  simp only [h]
  constructor
  · constructor
    · intro hv
      by_cases hi : instagramMatch c = true
      · exact hiff.mp hi
      · rw [if_neg hi] at hv
        exact Except.noConfusion hv
    · intro hp
      rw [if_pos (hiff.mpr hp)]
  · intro hp
    rw [if_neg (fun hi => hp (hiff.mp hi))]

/-- Witness for C5: `https://example.com/reel/ABC` survives normalization
unchanged, but its host is not the platform domain, so the re-validation
in `download_audio` rejects it with the invalid-URL error. -/
theorem c5_revalidates_rebuilt_url_witness :
    cleanInstagramReelUrl "https://example.com/reel/ABC".toList =
      .ok "https://example.com/reel/ABC".toList ∧
    downloadAudioValidate "https://example.com/reel/ABC".toList =
      .error "This does not look like a valid Instagram Reel URL.".toList :=
  ⟨by decide,
   (c5_revalidates_rebuilt_url "https://example.com/reel/ABC".toList
       "https://example.com/reel/ABC".toList (by decide)).2
     (fun hp => absurd ((instagramMatch_iff (by decide)).mpr hp) (by decide))⟩

end ReelTranscript
